import Mathlib

/-!
# Verification of the amphipod-sorting solver (`src/solution.py`)

Shallow embedding of the solver: the state model, the move generator,
the heuristic, the A* search loop and the top-level `solve`, translated
from the Python source.  Machine integers in the source are plain
non-negative integers (no overflow occurs: all quantities are small), so
they are modelled as `Nat`.  Python tuples of one-character strings are
modelled as `List Char`; Python's lexicographic tuple ordering (used by
`heapq`) is reproduced by explicit lexicographic comparison functions.

The Python `while` loop of the search is modelled with explicit fuel:
`a_asterisk_go fuel …` returns `none` when the fuel runs out, `some none`
when the queue empties (the Python function returns `None`), and
`some (some c)` when a goal state is popped with accumulated cost `c`.
-/

namespace Solution

/-- Global configuration: per-step movement cost of each unit type
(`COSTS` in the source).  Cells other than `A`/`B`/`C`/`D` never reach a
cost lookup in the source; the default `0` is unreachable for valid cells. -/
def COSTS (c : Char) : Nat :=
  match c with
  | 'A' => 1
  | 'B' => 10
  | 'C' => 100
  | 'D' => 1000
  | _ => 0

/-- Entrance column of each unit type's target room (`TARGET_ROOM_POS`). -/
def TARGET_ROOM_POS (c : Char) : Nat :=
  match c with
  | 'A' => 2
  | 'B' => 4
  | 'C' => 6
  | 'D' => 8
  | _ => 0

/-- Entrance columns of the four rooms (`ROOM_INDICES`). -/
def ROOM_INDICES : List Nat := [2, 4, 6, 8]

/-- Hallway length (`HALL_LEN`). -/
def HALL_LEN : Nat := 11

/-- Room depth (`ROOM_DEPTH`). -/
def ROOM_DEPTH : Nat := 2

/-- Membership in `INVALID_HALL_POS = {2, 4, 6, 8}`. -/
def isInvalidHall (p : Nat) : Bool :=
  p == 2 || p == 4 || p == 6 || p == 8

/-- A labyrinth state: the corridor (11 cells) and the four rooms
(each `ROOM_DEPTH` cells, entrance first).  A cell is `'.'` or a unit
letter.  This is the Python tuple `(corridor, rooms)`. -/
abbrev GameState := List Char × List (List Char)

/-- `'ABCD'[i]` of the source (only called with `i < 4`). -/
def targetChar (i : Nat) : Char :=
  match i with
  | 0 => 'A'
  | 1 => 'B'
  | 2 => 'C'
  | 3 => 'D'
  | _ => 'A'

/-- `'ABCD'.index(obj)` of the source (only reached for unit letters). -/
def abcdIndex (c : Char) : Nat :=
  match c with
  | 'A' => 0
  | 'B' => 1
  | 'C' => 2
  | 'D' => 3
  | _ => 0

/-- `data_input`: the corridor starts empty and the rooms are read from
columns 3, 5, 7, 9 of input lines 2 (top cell) and 3 (bottom cell). -/
def data_input (lines : List (List Char)) : GameState :=
  let corridor := List.replicate HALL_LEN '.'
  let l2 := lines.getD 2 []
  let l3 := lines.getD 3 []
  let top := [l2.getD 3 '.', l2.getD 5 '.', l2.getD 7 '.', l2.getD 9 '.']
  let bottom := [l3.getD 3 '.', l3.getD 5 '.', l3.getD 7 '.', l3.getD 9 '.']
  (corridor, (List.range 4).map fun i => [top.getD i '.', bottom.getD i '.'])

/-- `is_completed`: every cell of room `i` equals the `i`-th letter of
`ABCD`.  An empty cell `'.'` differs from the letter, so a room with an
empty cell is not completed. -/
def is_completed (state : GameState) : Bool :=
  (List.range 4).all fun i => (state.2.getD i []).all fun obj => obj == targetChar i

/-- `room_open`: the room contains only `'.'` or the given object. -/
def room_open (obj : Char) (room : List Char) : Bool :=
  room.all fun o => o == '.' || o == obj

/-- Index of the shallowest occupied cell of a room (the source's
`obj_idx` while-loop); equals the length when the room is all empty. -/
def firstOccupied : List Char → Nat
  | [] => 0
  | c :: rest => if c == '.' then firstOccupied rest + 1 else 0

/-- The leftward corridor scan of `moves_to_target`: positions
`p-1, p-2, …, 0`, stopping at the first occupied cell, skipping
room-entrance columns.  The argument is one past the first position
scanned. -/
def scanLeft (corridor : List Char) : Nat → List Nat
  | 0 => []
  | p + 1 =>
    if corridor.getD p '.' != '.' then []
    else if isInvalidHall p then scanLeft corridor p
    else p :: scanLeft corridor p

/-- The rightward corridor scan of `moves_to_target`: positions
`pos, pos+1, …` for `fuel` steps, stopping at the first occupied cell,
skipping room-entrance columns. -/
def scanRight (corridor : List Char) : Nat → Nat → List Nat
  | 0, _ => []
  | fuel + 1, pos =>
    if corridor.getD pos '.' != '.' then []
    else if isInvalidHall pos then scanRight corridor fuel (pos + 1)
    else pos :: scanRight corridor fuel (pos + 1)

/-- Build the successor of a room-to-hallway move: the unit `obj` leaves
cell `obj_idx` of room `room_id` and rests at corridor position `pos`. -/
def roomExitMove (state : GameState) (room_id obj_idx room_pos : Nat) (obj : Char)
    (pos : Nat) : GameState × Nat :=
  let steps := obj_idx + 1 + Nat.dist pos room_pos
  ((state.1.set pos obj,
    state.2.set room_id ((state.2.getD room_id []).set obj_idx '.')),
   steps * COSTS obj)

/-- `moves_to_target`: all moves of the shallowest unit of room `room_id`
to a corridor position (left scan first, then right scan, as in the
source). -/
def moves_to_target (state : GameState) (room_id : Nat) : List (GameState × Nat) :=
  let room := state.2.getD room_id []
  let room_pos := ROOM_INDICES.getD room_id 0
  if room.all (fun r => r == '.') then []
  else if room_open (targetChar room_id) room
      && room.all (fun r => r == targetChar room_id || r == '.') then []
  else
    let obj_idx := firstOccupied room
    if obj_idx == ROOM_DEPTH then []
    else
      let obj := room.getD obj_idx '.'
      (scanLeft state.1 room_pos).map (roomExitMove state room_id obj_idx room_pos obj)
        ++ (scanRight state.1 (HALL_LEN - (room_pos + 1)) (room_pos + 1)).map
            (roomExitMove state room_id obj_idx room_pos obj)

/-- The backward scan of `moves_from_hallway` locating the deepest empty
cell of the target room, starting from the given depth. -/
def deepestEmptyFrom (room : List Char) : Nat → Option Nat
  | 0 => if room.getD 0 '.' == '.' then some 0 else none
  | d + 1 => if room.getD (d + 1) '.' == '.' then some (d + 1) else deepestEmptyFrom room d

/-- `moves_from_hallway`: the unit at corridor position `hall_pos` moves
into its target room when the room is open, the corridor strictly between
is clear, and the room has an empty cell; it rests at the deepest empty
cell. -/
def moves_from_hallway (state : GameState) (hall_pos : Nat) : List (GameState × Nat) :=
  let obj := state.1.getD hall_pos '.'
  if obj == '.' then []
  else
    let target_room_id := abcdIndex obj
    let target_room_pos := ROOM_INDICES.getD target_room_id 0
    let target_room := state.2.getD target_room_id []
    if !room_open obj target_room then []
    else
      let lo := min hall_pos target_room_pos + 1
      let hi := max hall_pos target_room_pos
      if (List.range' lo (hi - lo)).any (fun pos => state.1.getD pos '.' != '.') then []
      else
        match deepestEmptyFrom target_room (ROOM_DEPTH - 1) with
        | none => []
        | some depth =>
          let steps := Nat.dist hall_pos target_room_pos + depth + 1
          [((state.1.set hall_pos '.',
             state.2.set target_room_id (target_room.set depth obj)),
            steps * COSTS obj)]

/-- `neighbors`: all room-to-hallway moves (rooms 0..3) followed by all
hallway-to-room moves (positions 0..10), in source order. -/
def neighbors (state : GameState) : List (GameState × Nat) :=
  (List.range 4).foldr (fun i acc => moves_to_target state i ++ acc)
    ((List.range HALL_LEN).foldr (fun pos acc => moves_from_hallway state pos ++ acc) [])

/-- Contribution of one corridor cell to the heuristic. -/
def hallContribution (pos : Nat) (obj : Char) : Nat :=
  if obj == '.' then 0
  else (Nat.dist pos (TARGET_ROOM_POS obj) + ROOM_DEPTH) * COSTS obj

/-- Contribution of one room cell to the heuristic. -/
def roomContribution (room_id depth : Nat) (obj : Char) : Nat :=
  if obj == '.' then 0
  else if obj == targetChar room_id then 0
  else (depth + 1 + Nat.dist (ROOM_INDICES.getD room_id 0) (TARGET_ROOM_POS obj)
        + ROOM_DEPTH) * COSTS obj

/-- `heuristic`: sum of independent distance estimates of all units. -/
def heuristic (state : GameState) : Nat :=
  (state.1.enum.map fun po => hallContribution po.1 po.2).sum
    + (state.2.enum.map fun ir =>
        (ir.2.enum.map fun dc => roomContribution ir.1 dc.1 dc.2).sum).sum

/-- A priority-queue entry `(priority, cost, state)` as pushed by the
source onto the `heapq` heap. -/
abbrev Entry := Nat × Nat × GameState

/-- Python's lexicographic `<` on tuples of one-character strings. -/
def lexListLt : List Char → List Char → Bool
  | [], [] => false
  | [], _ :: _ => true
  | _ :: _, [] => false
  | a :: as, b :: bs =>
    if a < b then true else if b < a then false else lexListLt as bs

/-- Python's lexicographic `<` on tuples of tuples of characters. -/
def lexRoomsLt : List (List Char) → List (List Char) → Bool
  | [], [] => false
  | [], _ :: _ => true
  | _ :: _, [] => false
  | a :: as, b :: bs =>
    if lexListLt a b then true else if lexListLt b a then false else lexRoomsLt as bs

/-- Python's `<` on states `(corridor, rooms)`. -/
def stateLt (s t : GameState) : Bool :=
  if lexListLt s.1 t.1 then true
  else if lexListLt t.1 s.1 then false
  else lexRoomsLt s.2 t.2

/-- Python's `<` on heap entries `(priority, cost, state)`. -/
def entryLt (e f : Entry) : Bool :=
  if e.1 < f.1 then true
  else if f.1 < e.1 then false
  else if e.2.1 < f.2.1 then true
  else if f.2.1 < e.2.1 then false
  else stateLt e.2.2 f.2.2

/-- Pop the minimum entry (in Python's tuple order) from the queue.
`heapq.heappop` returns the least element of the heap; among equal-value
duplicates any copy is interchangeable, so a list modelling the heap's
multiset of entries is a faithful model. -/
def popMin : List Entry → Option (Entry × List Entry)
  | [] => none
  | e :: rest =>
    match popMin rest with
    | none => some (e, [])
    | some (m, rest') => if entryLt m e then some (m, e :: rest') else some (e, rest)

/-- The `cost_so_far` dictionary, as an association list keyed by state. -/
abbrev CostMap := List (GameState × Nat)

/-- Dictionary lookup `cost_so_far[s]`. -/
def lookupCost : CostMap → GameState → Option Nat
  | [], _ => none
  | p :: rest, s => if p.1 == s then some p.2 else lookupCost rest s

/-- Dictionary assignment `cost_so_far[s] = c` (overwrite or append). -/
def insertCost : CostMap → GameState → Nat → CostMap
  | [], s, c => [(s, c)]
  | p :: rest, s, c => if p.1 == s then (s, c) :: rest else p :: insertCost rest s c

/-- Body of the `for next_state, step_cost in neighbors(current)` loop:
record and push the successor when its candidate cost improves. -/
def relaxStep (cost : Nat) (acc : List Entry × CostMap) (sc : GameState × Nat) :
    List Entry × CostMap :=
  let new_cost := cost + sc.2
  let better := match lookupCost acc.2 sc.1 with
    | none => true
    | some old => decide (new_cost < old)
  if better then
    ((new_cost + heuristic sc.1, new_cost, sc.1) :: acc.1, insertCost acc.2 sc.1 new_cost)
  else acc

/-- The A* main loop with explicit fuel.  `none` means the fuel ran out
(never the case in the runs considered below); `some none` models the
Python `return None` on queue exhaustion; `some (some c)` models
`return cost` on popping a goal state. -/
def a_asterisk_go (goal_test : GameState → Bool) :
    Nat → List Entry → CostMap → Option (Option Nat)
  | 0, _, _ => none
  | fuel + 1, queue, costs =>
    match popMin queue with
    | none => some none
    | some (e, rest) =>
      if goal_test e.2.2 then some (some e.2.1)
      else
        let qm := (neighbors e.2.2).foldl (relaxStep e.2.1) (rest, costs)
        a_asterisk_go goal_test fuel qm.1 qm.2

/-- Fuel bound used to run the search on concrete inputs; the loop of the
source terminates, so any sufficiently large bound is equivalent. -/
def SEARCH_FUEL : Nat := 1000000

/-- `a_asterisk_search(start, goal_test)`: initial queue
`[(heuristic(start), 0, start)]`, initial map `{start: 0}`. -/
def a_asterisk_search (start : GameState) (goal_test : GameState → Bool) :
    Option (Option Nat) :=
  a_asterisk_go goal_test SEARCH_FUEL [(0 + heuristic start, 0, start)] [(start, 0)]

/-- `solve`: parse the lines, run the search with the goal predicate
`is_completed`, and collapse the absent result `None` to `0`
(`return result if result is not None else 0`). -/
def solve (lines : List (List Char)) : Nat :=
  match a_asterisk_search (data_input lines) is_completed with
  | some (some c) => c
  | _ => 0

/-! ## Derived notions used by the verification -/

/-- Shape well-formedness of a state: an 11-cell corridor and four rooms
of `ROOM_DEPTH` cells.  The Python code indexes tuples of exactly this
shape (anything else would raise), so all general statements assume it. -/
def WF (state : GameState) : Prop :=
  state.1.length = HALL_LEN ∧ state.2.length = 4 ∧ ∀ r ∈ state.2, r.length = ROOM_DEPTH

/-- Number of units of type `t` present in the state (corridor plus rooms). -/
def countType (state : GameState) (t : Char) : Nat :=
  state.1.count t + (state.2.map (List.count t)).sum

/-- The multiset of unit types present in the state (empty cells removed). -/
def unitMultiset (state : GameState) : Multiset Char :=
  ((state.1 ++ state.2.flatten).filter fun c => c != '.')

/-- A balanced state carries exactly `ROOM_DEPTH` units of each of the
four types (the population any solvable instance has). -/
def Balanced (state : GameState) : Prop :=
  ∀ t ∈ ['A', 'B', 'C', 'D'], countType state t = ROOM_DEPTH

/-- Within each room the occupied cells form a contiguous block at the
back: a unit never sits in front of an empty cell. -/
def Packed (state : GameState) : Prop :=
  ∀ r ∈ state.2, ∀ e, e < r.length → ∀ d, d < e →
    r.getD d '.' ≠ '.' → r.getD e '.' ≠ '.'

instance (s : GameState) : Decidable (WF s) := by unfold WF; infer_instance

instance (s : GameState) : Decidable (Balanced s) := by unfold Balanced; infer_instance

instance (s : GameState) : Decidable (Packed s) := by unfold Packed; infer_instance

/-- A cell is either empty or one of the four unit letters. -/
def validCell (c : Char) : Bool :=
  c == '.' || c == 'A' || c == 'B' || c == 'C' || c == 'D'

/-- All cells of the state are valid (the parser only produces such
states from well-formed diagrams). -/
def ValidState (s : GameState) : Prop :=
  (∀ c ∈ s.1, validCell c = true) ∧ ∀ r ∈ s.2, ∀ c ∈ r, validCell c = true

instance (s : GameState) : Decidable (ValidState s) := by
  unfold ValidState
  infer_instance

/-- Numeric code of a cell, for counting the finitely many well-formed
states. -/
def cellCode (c : Char) : Fin 5 :=
  if c == 'A' then 1 else if c == 'B' then 2 else if c == 'C' then 3
  else if c == 'D' then 4 else 0

/-- Encoding of a state into a finite type: the corridor and room cells
read off into functions on finite index sets. -/
def encodeState (s : GameState) : (Fin 11 → Fin 5) × (Fin 4 → Fin 2 → Fin 5) :=
  (fun i => cellCode (s.1.getD i '.'),
   fun i d => cellCode ((s.2.getD i []).getD d '.'))

/-- Number of codes: an upper bound for the number of distinct
well-formed states. -/
def STATE_BOUND : Nat := Fintype.card ((Fin 11 → Fin 5) × (Fin 4 → Fin 2 → Fin 5))

/-- Total of all recorded costs in the bookkeeping map. -/
def mapTotal (m : CostMap) : Nat := (m.map fun q => q.2).sum

/-- Invariant of the search loop used for the termination argument:
every queued state and every recorded state is well-formed with valid
cells, and the recorded keys are distinct. -/
structure SearchInv (queue : List Entry) (costs : CostMap) : Prop where
  qwf : ∀ e ∈ queue, WF e.2.2 ∧ ValidState e.2.2
  mwf : ∀ q ∈ costs, WF q.1 ∧ ValidState q.1
  mnodup : (costs.map Prod.fst).Nodup

/-- `Reaches s u c`: some sequence of generated moves leads from `s` to
`u` with total cost `c`. -/
inductive Reaches : GameState → GameState → Nat → Prop
  | refl (s : GameState) : Reaches s s 0
  | step {s t u : GameState} {c c' : Nat} :
      (t, c) ∈ neighbors s → Reaches t u c' → Reaches s u (c + c')

/-- `ReachGoal s c`: some sequence of generated moves of total cost `c`
leads from `s` to a state satisfying the goal predicate. -/
def ReachGoal (s : GameState) (c : Nat) : Prop :=
  ∃ g, Reaches s g c ∧ is_completed g = true

/-- Corridor-cell heuristic contribution with room-entry charge `k`
(the source's heuristic uses `k = ROOM_DEPTH`; the amended claims use
`k = 1`, the cheapest possible entry depth). -/
def hallContributionK (k pos : Nat) (obj : Char) : Nat :=
  if obj == '.' then 0
  else (Nat.dist pos (TARGET_ROOM_POS obj) + k) * COSTS obj

/-- Room-cell heuristic contribution with room-entry charge `k`. -/
def roomContributionK (k room_id depth : Nat) (obj : Char) : Nat :=
  if obj == '.' then 0
  else if obj == targetChar room_id then 0
  else (depth + 1 + Nat.dist (ROOM_INDICES.getD room_id 0) (TARGET_ROOM_POS obj)
        + k) * COSTS obj

/-- The heuristic with room-entry charge `k`; `heuristicK ROOM_DEPTH`
coincides with the source's `heuristic`. -/
def heuristicK (k : Nat) (state : GameState) : Nat :=
  (state.1.enum.map fun po => hallContributionK k po.1 po.2).sum
    + (state.2.enum.map fun ir =>
        (ir.2.enum.map fun dc => roomContributionK k ir.1 dc.1 dc.2).sum).sum

/-- The lower-bound heuristic variant (admissible, unlike `heuristic`):
every room entry is charged a single step. -/
def heuristicLow (state : GameState) : Nat :=
  heuristicK 1 state

/-- Per-step cost of a corridor cell if it holds a misplaced unit. -/
def hallMisplaced (obj : Char) : Nat :=
  if obj == '.' then 0 else COSTS obj

/-- Per-step cost of a room cell if it holds a misplaced unit. -/
def roomMisplaced (room_id : Nat) (obj : Char) : Nat :=
  if obj == '.' then 0
  else if obj == targetChar room_id then 0
  else COSTS obj

/-- Sum of the per-step costs of all misplaced units of the state
(every unit the heuristic charges for). -/
def misplacedCost (state : GameState) : Nat :=
  (state.1.map hallMisplaced).sum
    + (state.2.enum.map fun ir => (ir.2.map (roomMisplaced ir.1)).sum).sum

/-- Claim C6's stated precondition for a hallway-to-room move of unit
`obj` sitting at `hall_pos`: the target room is open, every corridor
cell strictly between the unit and the room entrance is empty, and the
room has an empty cell. -/
def HallMoveOK (s : GameState) (hall_pos : Nat) (obj : Char) : Prop :=
  room_open obj (s.2.getD (abcdIndex obj) []) = true
  ∧ (∀ q, min hall_pos (TARGET_ROOM_POS obj) < q →
      q < max hall_pos (TARGET_ROOM_POS obj) → s.1.getD q '.' = '.')
  ∧ ∃ d, d < ROOM_DEPTH ∧ (s.2.getD (abcdIndex obj) []).getD d '.' = '.'

/-! ## Concrete states used as witnesses and counterexamples -/

/-- Input lines whose rooms are already settled (each holds only its own
type or empty cells) but where room `A` has an empty top cell: no move is
generated, and no goal state is reachable. -/
def linesUnsolvable : List (List Char) :=
  ["#############".toList, "#...........#".toList,
   "###.#B#C#D###".toList, "  #A#B#C#D#  ".toList, "  #########  ".toList]

/-- The state parsed from `linesUnsolvable`: empty corridor, rooms
`('.','A')  ('B','B')  ('C','C')  ('D','D')`. -/
def statePartial : GameState :=
  (['.', '.', '.', '.', '.', '.', '.', '.', '.', '.', '.'],
   [['.', 'A'], ['B', 'B'], ['C', 'C'], ['D', 'D']])

/-- The fully sorted state: every room holds only its target type. -/
def goalFull : GameState :=
  (['.', '.', '.', '.', '.', '.', '.', '.', '.', '.', '.'],
   [['A', 'A'], ['B', 'B'], ['C', 'C'], ['D', 'D']])

/-- A unit `A` one step from its room, whose target room already holds a
correctly placed `A` at the back: the heuristic charges 3 steps although
2 suffice. -/
def hallAState : GameState :=
  (['.', 'A', '.', '.', '.', '.', '.', '.', '.', '.', '.'],
   [['.', 'A'], ['B', 'B'], ['C', 'C'], ['D', 'D']])

/-- Start state on which the search returns 7107 although a move
sequence of cost 6913 reaches the goal. -/
def startSubopt : GameState :=
  (['.', '.', '.', 'D', '.', '.', '.', '.', '.', '.', '.'],
   [['.', 'A'], ['B', 'B'], ['C', 'A'], ['C', 'D']])

/-- Optimal play from `startSubopt`, state after move 1
(`C` leaves room 2 for corridor cell 5, cost 200). -/
def subopt1 : GameState :=
  (['.', '.', '.', 'D', '.', 'C', '.', '.', '.', '.', '.'],
   [['.', 'A'], ['B', 'B'], ['.', 'A'], ['C', 'D']])

/-- State after move 2 (`A` leaves room 2 for corridor cell 9, cost 5). -/
def subopt2 : GameState :=
  (['.', '.', '.', 'D', '.', 'C', '.', '.', '.', 'A', '.'],
   [['.', 'A'], ['B', 'B'], ['.', '.'], ['C', 'D']])

/-- State after move 3 (`C` leaves room 3 for corridor cell 7, cost 200). -/
def subopt3 : GameState :=
  (['.', '.', '.', 'D', '.', 'C', '.', 'C', '.', 'A', '.'],
   [['.', 'A'], ['B', 'B'], ['.', '.'], ['.', 'D']])

/-- State after move 4 (`C` enters room 2 at depth 1, cost 300). -/
def subopt4 : GameState :=
  (['.', '.', '.', 'D', '.', '.', '.', 'C', '.', 'A', '.'],
   [['.', 'A'], ['B', 'B'], ['.', 'C'], ['.', 'D']])

/-- State after move 5 (`C` enters room 2 at depth 0, cost 200). -/
def subopt5 : GameState :=
  (['.', '.', '.', 'D', '.', '.', '.', '.', '.', 'A', '.'],
   [['.', 'A'], ['B', 'B'], ['C', 'C'], ['.', 'D']])

/-- State after move 6 (`D` enters room 3 at depth 0, cost 6000). -/
def subopt6 : GameState :=
  (['.', '.', '.', '.', '.', '.', '.', '.', '.', 'A', '.'],
   [['.', 'A'], ['B', 'B'], ['C', 'C'], ['D', 'D']])

/-! ## Helper lemmas -/

/-- Extending a move sequence by one generated move at its end. -/
lemma Reaches.snoc {s t : GameState} {c : Nat} (h : Reaches s t c) :
    ∀ {u : GameState} {c' : Nat}, (u, c') ∈ neighbors t → Reaches s u (c + c') := by
  induction h with
  | refl w =>
    intro u c' hm
    have := Reaches.step hm (Reaches.refl u)
    rwa [Nat.zero_add]
  | step hmem _ ih =>
    intro u c' hm
    have := Reaches.step hmem (ih hm)
    rwa [Nat.add_assoc]

/-- `popMin` returns a member of the queue, and the remaining queue is a
sub-collection of the original one. -/
lemma popMin_sub : ∀ {q : List Entry} {e : Entry} {rest : List Entry},
    popMin q = some (e, rest) → e ∈ q ∧ ∀ x ∈ rest, x ∈ q := by
  intro q
  induction q with
  | nil => intro e rest h; simp [popMin] at h
  | cons a as ih =>
    intro e rest h
    cases hrec : popMin as with
    | none =>
      simp only [popMin, hrec, Option.some.injEq, Prod.mk.injEq] at h
      obtain ⟨rfl, rfl⟩ := h
      exact ⟨List.mem_cons_self a as, fun x hx => absurd hx (List.not_mem_nil x)⟩
    | some p =>
      obtain ⟨m, rest'⟩ := p
      simp only [popMin, hrec] at h
      obtain ⟨hm, hsub⟩ := ih hrec
      by_cases hlt : entryLt m a = true
      · rw [if_pos hlt] at h
        simp only [Option.some.injEq, Prod.mk.injEq] at h
        obtain ⟨rfl, rfl⟩ := h
        refine ⟨List.mem_cons_of_mem a hm, ?_⟩
        intro x hx
        rcases List.mem_cons.mp hx with rfl | hx'
        · exact List.mem_cons_self _ _
        · exact List.mem_cons_of_mem a (hsub x hx')
      · rw [if_neg hlt] at h
        simp only [Option.some.injEq, Prod.mk.injEq] at h
        obtain ⟨rfl, rfl⟩ := h
        exact ⟨List.mem_cons_self _ _, fun x hx => List.mem_cons_of_mem a hx⟩

/-- One relaxation step either pushes the candidate entry or leaves the
queue unchanged. -/
lemma relaxStep_fst (cost : Nat) (acc : List Entry × CostMap) (sc : GameState × Nat) :
    (relaxStep cost acc sc).1 = (cost + sc.2 + heuristic sc.1, cost + sc.2, sc.1) :: acc.1
    ∨ (relaxStep cost acc sc).1 = acc.1 := by
  unfold relaxStep
  dsimp only
  split
  · left; rfl
  · right; rfl

/-- Any entry of the queue produced by the relaxation loop either was
already queued or is a freshly pushed candidate for a listed successor. -/
lemma relax_fold_mem {P : Entry → Prop} (cost : Nat) :
    ∀ (l : List (GameState × Nat)) (acc : List Entry × CostMap),
      (∀ e ∈ acc.1, P e) →
      (∀ sc ∈ l, P (cost + sc.2 + heuristic sc.1, cost + sc.2, sc.1)) →
      ∀ e ∈ (l.foldl (relaxStep cost) acc).1, P e := by
  intro l
  induction l with
  | nil => intro acc hacc _ e he; exact hacc e he
  | cons sc rest ih =>
    intro acc hacc hl e he
    rw [List.foldl_cons] at he
    refine ih (relaxStep cost acc sc) ?_ (fun x hx => hl x (List.mem_cons_of_mem _ hx)) e he
    intro x hx
    rcases relaxStep_fst cost acc sc with hcase | hcase
    · rw [hcase] at hx
      rcases List.mem_cons.mp hx with rfl | hx'
      · exact hl sc (List.mem_cons_self _ _)
      · exact hacc x hx'
    · rw [hcase] at hx
      exact hacc x hx

/-- Characterization of the backward empty-cell scan on depth-2 rooms:
it returns exactly the deepest empty cell index. -/
lemma deepestEmpty_char (room : List Char) (d : Nat) :
    deepestEmptyFrom room (ROOM_DEPTH - 1) = some d ↔
      d < ROOM_DEPTH ∧ room.getD d '.' = '.'
        ∧ ∀ e, d < e → e < ROOM_DEPTH → room.getD e '.' ≠ '.' := by
  rw [show deepestEmptyFrom room (ROOM_DEPTH - 1)
      = if room.getD 1 '.' == '.' then some 1
        else if room.getD 0 '.' == '.' then some 0 else none from rfl,
    show ROOM_DEPTH = 2 from rfl]
  by_cases h1 : room.getD 1 '.' = '.'
  · rw [if_pos (by rw [beq_iff_eq]; exact h1)]
    constructor
    · intro h
      obtain rfl : (1 : Nat) = d := by simpa using h
      exact ⟨by omega, h1, by intro e he1 he2; omega⟩
    · rintro ⟨hd2, hde, hmax⟩
      interval_cases d
      · exact absurd h1 (hmax 1 (by omega) (by omega))
      · rfl
  · rw [if_neg (by rw [beq_iff_eq]; exact h1)]
    by_cases h0 : room.getD 0 '.' = '.'
    · rw [if_pos (by rw [beq_iff_eq]; exact h0)]
      constructor
      · intro h
        obtain rfl : (0 : Nat) = d := by simpa using h
        refine ⟨by omega, h0, ?_⟩
        intro e he1 he2
        obtain rfl : e = 1 := by omega
        exact h1
      · rintro ⟨hd2, hde, hmax⟩
        interval_cases d
        · rfl
        · exact absurd hde h1
    · rw [if_neg (by rw [beq_iff_eq]; exact h0)]
      constructor
      · intro h; simp at h
      · rintro ⟨hd2, hde, hmax⟩
        interval_cases d
        · exact absurd hde h0
        · exact absurd hde h1

/-- When some cell of a depth-2 room is empty the backward scan finds an
empty cell. -/
lemma deepestEmptyFrom_isSome (room : List Char) (d0 : Nat) (h0 : d0 < ROOM_DEPTH)
    (he : room.getD d0 '.' = '.') :
    ∃ d, deepestEmptyFrom room (ROOM_DEPTH - 1) = some d := by
  rw [show deepestEmptyFrom room (ROOM_DEPTH - 1)
      = if room.getD 1 '.' == '.' then some 1
        else if room.getD 0 '.' == '.' then some 0 else none from rfl]
  by_cases h1 : room.getD 1 '.' = '.'
  · exact ⟨1, by rw [if_pos (by rw [beq_iff_eq]; exact h1)]⟩
  · have hd0 : d0 = 0 := by
      rw [show ROOM_DEPTH = 2 from rfl] at h0
      interval_cases d0
      · rfl
      · exact absurd he h1
    subst hd0
    exact ⟨0, by rw [if_neg (by rw [beq_iff_eq]; exact h1), if_pos (by rw [beq_iff_eq]; exact he)]⟩

/-- Membership in the leftward corridor scan: exactly the valid resting
cells `pos` left of the entrance with every corridor cell from `pos` up
to (excluding) the entrance empty. -/
lemma scanLeft_mem (corridor : List Char) : ∀ (rp pos : Nat),
    pos ∈ scanLeft corridor rp ↔
      isInvalidHall pos = false ∧ pos < rp
        ∧ ∀ q, pos ≤ q → q < rp → corridor.getD q '.' = '.' := by
  intro rp
  induction rp with
  | zero =>
    intro pos
    rw [show scanLeft corridor 0 = [] from rfl]
    simp only [List.not_mem_nil, false_iff]
    rintro ⟨_, h, _⟩
    exact absurd h (Nat.not_lt_zero pos)
  | succ p ih =>
    intro pos
    rw [show scanLeft corridor (p + 1)
        = if corridor.getD p '.' != '.' then []
          else if isInvalidHall p then scanLeft corridor p
          else p :: scanLeft corridor p from rfl]
    by_cases hocc : corridor.getD p '.' = '.'
    · rw [if_neg (by simp only [bne_iff_ne]; exact not_not_intro hocc)]
      by_cases hinv : isInvalidHall p = true
      · rw [if_pos hinv, ih]
        constructor
        · rintro ⟨hv, hlt, hall⟩
          refine ⟨hv, by omega, fun q hq1 hq2 => ?_⟩
          by_cases hq : q < p
          · exact hall q hq1 hq
          · obtain rfl : q = p := by omega
            exact hocc
        · rintro ⟨hv, hlt, hall⟩
          have hne : pos ≠ p := by
            rintro rfl
            rw [hinv] at hv
            cases hv
          exact ⟨hv, by omega, fun q hq1 hq2 => hall q hq1 (by omega)⟩
      · rw [if_neg hinv, List.mem_cons, ih]
        constructor
        · rintro (rfl | ⟨hv, hlt, hall⟩)
          · refine ⟨Bool.eq_false_iff.mpr hinv, Nat.lt_succ_self _, fun q hq1 hq2 => ?_⟩
            obtain rfl : q = pos := by omega
            exact hocc
          · refine ⟨hv, by omega, fun q hq1 hq2 => ?_⟩
            by_cases hq : q < p
            · exact hall q hq1 hq
            · obtain rfl : q = p := by omega
              exact hocc
        · rintro ⟨hv, hlt, hall⟩
          by_cases hq : pos = p
          · exact Or.inl hq
          · exact Or.inr ⟨hv, by omega, fun q hq1 hq2 => hall q hq1 (by omega)⟩
    · rw [if_pos (by simp only [bne_iff_ne]; exact hocc)]
      simp only [List.not_mem_nil, false_iff]
      rintro ⟨hv, hlt, hall⟩
      exact hocc (hall p (by omega) (by omega))

/-- Membership in the rightward corridor scan: exactly the valid resting
cells `pos` within the scanned span with every corridor cell from the
scan start up to (including) `pos` empty. -/
lemma scanRight_mem (corridor : List Char) : ∀ (fuel start pos : Nat),
    pos ∈ scanRight corridor fuel start ↔
      isInvalidHall pos = false ∧ start ≤ pos ∧ pos < start + fuel
        ∧ ∀ q, start ≤ q → q ≤ pos → corridor.getD q '.' = '.' := by
  intro fuel
  induction fuel with
  | zero =>
    intro start pos
    rw [show scanRight corridor 0 start = [] from rfl]
    simp only [List.not_mem_nil, false_iff]
    rintro ⟨_, h1, h2, _⟩
    omega
  | succ f ih =>
    intro start pos
    rw [show scanRight corridor (f + 1) start
        = if corridor.getD start '.' != '.' then []
          else if isInvalidHall start then scanRight corridor f (start + 1)
          else start :: scanRight corridor f (start + 1) from rfl]
    by_cases hocc : corridor.getD start '.' = '.'
    · rw [if_neg (by simp only [bne_iff_ne]; exact not_not_intro hocc)]
      by_cases hinv : isInvalidHall start = true
      · rw [if_pos hinv, ih]
        constructor
        · rintro ⟨hv, h1, h2, hall⟩
          refine ⟨hv, by omega, by omega, fun q hq1 hq2 => ?_⟩
          rcases Nat.eq_or_lt_of_le hq1 with rfl | h
          · exact hocc
          · exact hall q (by omega) hq2
        · rintro ⟨hv, h1, h2, hall⟩
          have hne : pos ≠ start := by
            rintro rfl
            rw [hinv] at hv
            cases hv
          exact ⟨hv, by omega, by omega, fun q hq1 hq2 => hall q (by omega) hq2⟩
      · rw [if_neg hinv, List.mem_cons, ih]
        constructor
        · rintro (rfl | ⟨hv, h1, h2, hall⟩)
          · refine ⟨Bool.eq_false_iff.mpr hinv, Nat.le_refl pos, by omega, fun q hq1 hq2 => ?_⟩
            obtain rfl : q = pos := by omega
            exact hocc
          · refine ⟨hv, by omega, by omega, fun q hq1 hq2 => ?_⟩
            rcases Nat.eq_or_lt_of_le hq1 with rfl | h
            · exact hocc
            · exact hall q (by omega) hq2
        · rintro ⟨hv, h1, h2, hall⟩
          rcases Nat.eq_or_lt_of_le h1 with rfl | h
          · exact Or.inl rfl
          · exact Or.inr ⟨hv, by omega, by omega, fun q hq1 hq2 => hall q (by omega) hq2⟩
    · rw [if_pos (by simp only [bne_iff_ne]; exact hocc)]
      simp only [List.not_mem_nil, false_iff]
      rintro ⟨hv, h1, h2, hall⟩
      exact hocc (hall start (by omega) (by omega))

/-- The occupied cell found by the source's while-loop exists as soon as
the room holds any unit. -/
lemma firstOccupied_lt_length (room : List Char) (c : Char) (hc : c ∈ room)
    (hne : c ≠ '.') : firstOccupied room < room.length := by
  induction room with
  | nil => cases hc
  | cons a rest ih =>
    by_cases ha : a = '.'
    · subst ha
      rw [show firstOccupied ('.' :: rest) = firstOccupied rest + 1 from rfl]
      have hc' : c ∈ rest := by
        rcases List.mem_cons.mp hc with rfl | h
        · exact absurd rfl hne
        · exact h
      simpa using ih hc'
    · rw [show firstOccupied (a :: rest)
          = if a == '.' then firstOccupied rest + 1 else 0 from rfl,
        if_neg (by simp only [beq_iff_eq]; exact ha)]
      simp

/-- Everything strictly in front of the first occupied cell is empty,
and the first occupied cell (when inside the room) holds a unit. -/
lemma firstOccupied_spec (room : List Char) :
    (∀ e, e < firstOccupied room → room.getD e '.' = '.')
    ∧ (firstOccupied room < room.length → room.getD (firstOccupied room) '.' ≠ '.') := by
  induction room with
  | nil =>
    refine ⟨fun e he => ?_, fun h => ?_⟩
    · rw [show firstOccupied [] = 0 from rfl] at he
      omega
    · simp at h
  | cons a rest ih =>
    by_cases ha : a = '.'
    · subst ha
      rw [show firstOccupied ('.' :: rest) = firstOccupied rest + 1 from rfl]
      constructor
      · intro e he
        cases e with
        | zero => rfl
        | succ e' =>
          rw [List.getD_cons_succ]
          exact ih.1 e' (by omega)
      · intro hlt
        rw [List.getD_cons_succ]
        exact ih.2 (by simpa using hlt)
    · rw [show firstOccupied (a :: rest)
          = if a == '.' then firstOccupied rest + 1 else 0 from rfl,
        if_neg (by simp only [beq_iff_eq]; exact ha)]
      exact ⟨fun e he => by omega, fun _ => by simpa using ha⟩

/-- Unfolding of `moves_to_target` (the source's guard structure made
explicit). -/
lemma moves_to_target_eq (s : GameState) (room_id : Nat) :
    moves_to_target s room_id =
      if (s.2.getD room_id []).all (fun r => r == '.') then []
      else if room_open (targetChar room_id) (s.2.getD room_id [])
          && (s.2.getD room_id []).all (fun r => r == targetChar room_id || r == '.') then []
      else if firstOccupied (s.2.getD room_id []) == ROOM_DEPTH then []
      else
        (scanLeft s.1 (ROOM_INDICES.getD room_id 0)).map
            (roomExitMove s room_id (firstOccupied (s.2.getD room_id []))
              (ROOM_INDICES.getD room_id 0)
              ((s.2.getD room_id []).getD (firstOccupied (s.2.getD room_id [])) '.'))
          ++ (scanRight s.1 (HALL_LEN - (ROOM_INDICES.getD room_id 0 + 1))
              (ROOM_INDICES.getD room_id 0 + 1)).map
            (roomExitMove s room_id (firstOccupied (s.2.getD room_id []))
              (ROOM_INDICES.getD room_id 0)
              ((s.2.getD room_id []).getD (firstOccupied (s.2.getD room_id [])) '.')) := rfl

/-- Reading outside a list yields the default. -/
lemma getD_of_length_le {α : Type} {l : List α} {n : Nat} (h : l.length ≤ n) (d : α) :
    l.getD n d = d := by
  rw [List.getD_eq_getElem?_getD, List.getElem?_eq_none h]
  rfl

/-- Reading inside a list is plain indexing. -/
lemma getD_eq_getElem {α : Type} (l : List α) (i : Nat) (d : α) (h : i < l.length) :
    l.getD i d = l[i] := by
  rw [List.getD_eq_getElem?_getD, List.getElem?_eq_getElem h]
  rfl

/-- A `getD` read inside a list is a member. -/
lemma getD_mem {α : Type} (l : List α) (i : Nat) (d : α) (h : i < l.length) :
    l.getD i d ∈ l := by
  rw [getD_eq_getElem l i d h]
  exact List.getElem_mem h

/-- Writing one cell exchanges its old content for the new one in the
occurrence count. -/
lemma count_set (t x : Char) : ∀ (l : List Char) (i : Nat), i < l.length →
    (l.set i x).count t + (if l.getD i '.' == t then 1 else 0)
      = l.count t + (if x == t then 1 else 0) := by
  intro l
  induction l with
  | nil => intro i h; simp at h
  | cons a rest ih =>
    intro i h
    cases i with
    | zero =>
      rw [List.set_cons_zero, List.getD_cons_zero, List.count_cons, List.count_cons]
      omega
    | succ i' =>
      rw [List.set_cons_succ, List.getD_cons_succ, List.count_cons, List.count_cons]
      have := ih i' (by simpa using h)
      omega

/-- Writing one entry of a list of numbers exchanges its old value for
the new one in the total. -/
lemma sum_set_nat : ∀ (l : List Nat) (i : Nat) (x : Nat), i < l.length →
    (l.set i x).sum + l.getD i 0 = l.sum + x := by
  intro l
  induction l with
  | nil => intro i x h; simp at h
  | cons a rest ih =>
    intro i x h
    cases i with
    | zero =>
      rw [List.set_cons_zero, List.getD_cons_zero, List.sum_cons, List.sum_cons]
      omega
    | succ i' =>
      rw [List.set_cons_succ, List.getD_cons_succ, List.sum_cons, List.sum_cons]
      have := ih i' x (by simpa using h)
      omega

/-- Reading the mapped list is mapping the read. -/
lemma getD_map_count (t : Char) : ∀ (l : List (List Char)) (i : Nat), i < l.length →
    (l.map (List.count t)).getD i 0 = (l.getD i []).count t := by
  intro l
  induction l with
  | nil => intro i h; simp at h
  | cons a rest ih =>
    intro i h
    cases i with
    | zero => rfl
    | succ i' =>
      rw [List.map_cons, List.getD_cons_succ, List.getD_cons_succ]
      exact ih i' (by simpa using h)

/-- Every index of `abcdIndex` is a valid room index. -/
lemma abcdIndex_lt (c : Char) : abcdIndex c < 4 := by
  unfold abcdIndex
  split <;> omega

/-- Exchanging a corridor cell and a room cell preserves the per-type
count whenever the exchanged contents balance for that type. -/
lemma countType_swap (s : GameState) (pos rid j : Nat) (a b t : Char)
    (hpos : pos < s.1.length) (hrid : rid < s.2.length)
    (hj : j < (s.2.getD rid []).length)
    (hswap : (if s.1.getD pos '.' == t then 1 else 0)
        + (if (s.2.getD rid []).getD j '.' == t then 1 else 0)
      = (if a == t then 1 else 0) + (if b == t then 1 else 0)) :
    countType (s.1.set pos a, s.2.set rid ((s.2.getD rid []).set j b)) t = countType s t := by
  unfold countType
  dsimp only
  have e1 := count_set t a s.1 pos hpos
  have e2 := count_set t b (s.2.getD rid []) j hj
  have e3 : (((s.2.set rid ((s.2.getD rid []).set j b)).map (List.count t)).sum
        + (s.2.getD rid []).count t
      = (s.2.map (List.count t)).sum + ((s.2.getD rid []).set j b).count t) := by
    rw [List.map_set]
    have hs := sum_set_nat (s.2.map (List.count t)) rid
      (((s.2.getD rid []).set j b).count t) (by simpa using hrid)
    rw [getD_map_count t s.2 rid hrid] at hs
    exact hs
  omega

/-- Decomposition of `neighbors` membership into the two move families. -/
lemma mem_neighbors (s : GameState) (p : GameState × Nat) :
    p ∈ neighbors s ↔
      (∃ i, i < 4 ∧ p ∈ moves_to_target s i)
      ∨ (∃ pos, pos < HALL_LEN ∧ p ∈ moves_from_hallway s pos) := by
  rw [show neighbors s = moves_to_target s 0 ++ (moves_to_target s 1 ++ (moves_to_target s 2
      ++ (moves_to_target s 3 ++ (moves_from_hallway s 0 ++ (moves_from_hallway s 1
      ++ (moves_from_hallway s 2 ++ (moves_from_hallway s 3 ++ (moves_from_hallway s 4
      ++ (moves_from_hallway s 5 ++ (moves_from_hallway s 6 ++ (moves_from_hallway s 7
      ++ (moves_from_hallway s 8 ++ (moves_from_hallway s 9
      ++ (moves_from_hallway s 10 ++ [])))))))))))))) from rfl]
  simp only [List.mem_append, List.not_mem_nil, or_false]
  constructor
  · intro h
    rcases h with h | h | h | h | h | h | h | h | h | h | h | h | h | h | h
    · exact Or.inl ⟨0, by omega, h⟩
    · exact Or.inl ⟨1, by omega, h⟩
    · exact Or.inl ⟨2, by omega, h⟩
    · exact Or.inl ⟨3, by omega, h⟩
    · exact Or.inr ⟨0, by decide, h⟩
    · exact Or.inr ⟨1, by decide, h⟩
    · exact Or.inr ⟨2, by decide, h⟩
    · exact Or.inr ⟨3, by decide, h⟩
    · exact Or.inr ⟨4, by decide, h⟩
    · exact Or.inr ⟨5, by decide, h⟩
    · exact Or.inr ⟨6, by decide, h⟩
    · exact Or.inr ⟨7, by decide, h⟩
    · exact Or.inr ⟨8, by decide, h⟩
    · exact Or.inr ⟨9, by decide, h⟩
    · exact Or.inr ⟨10, by decide, h⟩
  · rintro (⟨i, hi, h⟩ | ⟨pos, hpos, h⟩)
    · interval_cases i <;> simp [h]
    · rw [show HALL_LEN = 11 from rfl] at hpos
      interval_cases pos <;> simp [h]

/-- The occupied-cell index found by the while-loop never exceeds the
room's length. -/
lemma firstOccupied_le_length : ∀ (l : List Char), firstOccupied l ≤ l.length := by
  intro l
  induction l with
  | nil => exact Nat.le_refl 0
  | cons a rest ih =>
    by_cases ha : a = '.'
    · subst ha
      rw [show firstOccupied ('.' :: rest) = firstOccupied rest + 1 from rfl]
      simpa using ih
    · rw [show firstOccupied (a :: rest)
          = if a == '.' then firstOccupied rest + 1 else 0 from rfl,
        if_neg (by simp only [beq_iff_eq]; exact ha)]
      exact Nat.zero_le _

/-- The entrance column of any room index is at most 8. -/
lemma room_pos_le (rid : Nat) : ROOM_INDICES.getD rid 0 ≤ 8 := by
  by_cases h4 : rid < 4
  · interval_cases rid <;> decide
  · rw [getD_of_length_le (by rw [show ROOM_INDICES.length = 4 from rfl]; omega)]
    omega

/-- Shape of a generated room-to-hallway move: the shallowest occupied
cell of the room is emptied and its unit is written to an empty corridor
cell. -/
lemma moves_to_target_shape {s : GameState} {rid : Nat} {p : GameState × Nat}
    (hlen : (s.2.getD rid []).length = ROOM_DEPTH)
    (h : p ∈ moves_to_target s rid) :
    ∃ pos, pos < HALL_LEN ∧ s.1.getD pos '.' = '.'
      ∧ firstOccupied (s.2.getD rid []) < (s.2.getD rid []).length
      ∧ (s.2.getD rid []).getD (firstOccupied (s.2.getD rid [])) '.' ≠ '.'
      ∧ p.1 = (s.1.set pos ((s.2.getD rid []).getD (firstOccupied (s.2.getD rid [])) '.'),
               s.2.set rid ((s.2.getD rid []).set (firstOccupied (s.2.getD rid [])) '.'))
      ∧ p.2 = (firstOccupied (s.2.getD rid []) + 1 + Nat.dist pos (ROOM_INDICES.getD rid 0))
          * COSTS ((s.2.getD rid []).getD (firstOccupied (s.2.getD rid [])) '.') := by
  rw [moves_to_target_eq] at h
  split at h
  · exact absurd h (List.not_mem_nil p)
  · split at h
    · exact absurd h (List.not_mem_nil p)
    · split at h
      · exact absurd h (List.not_mem_nil p)
      · rename_i hnotall hnotsettled hfo
        have hfo' : firstOccupied (s.2.getD rid []) < (s.2.getD rid []).length := by
          have h1 := firstOccupied_le_length (s.2.getD rid [])
          have h2 : firstOccupied (s.2.getD rid []) ≠ ROOM_DEPTH := by simpa using hfo
          omega
        have hocc := (firstOccupied_spec (s.2.getD rid [])).2 hfo'
        have hrple := room_pos_le rid
        have hHL : HALL_LEN = 11 := rfl
        rw [List.mem_append] at h
        rcases h with h | h
        · obtain ⟨pos, hpos, rfl⟩ := List.mem_map.mp h
          rw [scanLeft_mem] at hpos
          exact ⟨pos, by omega, hpos.2.2 pos (Nat.le_refl pos) hpos.2.1, hfo', hocc, rfl, rfl⟩
        · obtain ⟨pos, hpos, rfl⟩ := List.mem_map.mp h
          rw [scanRight_mem] at hpos
          refine ⟨pos, ?_, hpos.2.2.2 pos hpos.2.1 (Nat.le_refl pos), hfo', hocc, rfl, rfl⟩
          have := hpos.2.2.1
          rw [show HALL_LEN = 11 from rfl] at this ⊢
          omega

/-- Shape of a generated hallway-to-room move: the unit leaves its
corridor cell and is written to an empty cell of its target room. -/
lemma moves_from_hallway_shape {s : GameState} {pos : Nat} {p : GameState × Nat}
    (h : p ∈ moves_from_hallway s pos) :
    ∃ obj d, s.1.getD pos '.' = obj ∧ obj ≠ '.' ∧ d < ROOM_DEPTH
      ∧ (s.2.getD (abcdIndex obj) []).getD d '.' = '.'
      ∧ (∀ e, d < e → e < ROOM_DEPTH → (s.2.getD (abcdIndex obj) []).getD e '.' ≠ '.')
      ∧ p.1 = (s.1.set pos '.',
               s.2.set (abcdIndex obj) ((s.2.getD (abcdIndex obj) []).set d obj))
      ∧ p.2 = (Nat.dist pos (ROOM_INDICES.getD (abcdIndex obj) 0) + d + 1) * COSTS obj := by
  simp only [moves_from_hallway] at h
  split at h
  · exact absurd h (List.not_mem_nil p)
  · split at h
    · exact absurd h (List.not_mem_nil p)
    · split at h
      · exact absurd h (List.not_mem_nil p)
      · rename_i hne hopen hclear
        split at h
        · exact absurd h (List.not_mem_nil p)
        · rename_i d hd
          rw [List.mem_singleton] at h
          obtain ⟨hdlt, hdE, hdMax⟩ := (deepestEmpty_char _ _).mp hd
          refine ⟨s.1.getD pos '.', d, rfl, by simpa using hne, hdlt, hdE, hdMax, ?_, ?_⟩
          · rw [h]
          · rw [h]

/-- Every generated move preserves the number of units of every type:
it merely exchanges the contents of one corridor cell and one room
cell. -/
lemma countType_moves {s : GameState} {p : GameState × Nat} (hwf : WF s)
    (h : p ∈ neighbors s) (t : Char) : countType p.1 t = countType s t := by
  obtain ⟨hcor, h4, hrooms⟩ := hwf
  rw [mem_neighbors] at h
  rcases h with ⟨i, hi, h⟩ | ⟨pos, hpos, h⟩
  · have hlen : (s.2.getD i []).length = ROOM_DEPTH :=
      hrooms _ (getD_mem s.2 i [] (by omega))
    obtain ⟨pos, hpos, hdot, hfo, hocc, hp1, _⟩ := moves_to_target_shape hlen h
    rw [hp1]
    apply countType_swap s pos i (firstOccupied (s.2.getD i []))
        ((s.2.getD i []).getD (firstOccupied (s.2.getD i [])) '.') '.' t
        (by omega) (by omega) hfo
    rw [hdot]
    omega
  · obtain ⟨obj, d, hobj, hne, hdlt, hdE, _, hp1, _⟩ := moves_from_hallway_shape h
    have htid : abcdIndex obj < 4 := abcdIndex_lt obj
    have hlen : (s.2.getD (abcdIndex obj) []).length = ROOM_DEPTH :=
      hrooms _ (getD_mem s.2 (abcdIndex obj) [] (by omega))
    rw [hp1]
    apply countType_swap s pos (abcdIndex obj) d '.' obj t
        (by omega) (by omega) (by omega)
    rw [hobj, hdE]
    omega

/-- Writing a cell and reading it back. -/
lemma getD_set_self {α : Type} (l : List α) (i : Nat) (x d : α) (h : i < l.length) :
    (l.set i x).getD i d = x := by
  rw [getD_eq_getElem _ _ _ (by simpa using h)]
  simp

/-- Writing one cell leaves the other cells unchanged. -/
lemma getD_set_ne {α : Type} (l : List α) (i j : Nat) (x d : α) (h : i ≠ j) :
    (l.set i x).getD j d = l.getD j d := by
  by_cases hj : j < l.length
  · rw [getD_eq_getElem _ _ _ (by simpa using hj), getD_eq_getElem _ _ _ hj]
    exact List.getElem_set_ne h (by simpa using hj)
  · rw [getD_of_length_le (by simpa using Nat.le_of_not_lt hj) d,
      getD_of_length_le (Nat.le_of_not_lt hj) d]

/-- Sum of an indexed map over an enumeration, as a `Finset.range`
sum. -/
lemma enumFrom_map_sum {α : Type} (F : Nat × α → Nat) (dflt : α) :
    ∀ (l : List α) (n : Nat),
      ((List.enumFrom n l).map F).sum
        = ∑ i in Finset.range l.length, F (n + i, l.getD i dflt) := by
  intro l
  induction l with
  | nil => intro n; simp
  | cons a rest ih =>
    intro n
    rw [List.enumFrom_cons]
    simp only [List.map_cons, List.sum_cons]
    rw [ih (n + 1), List.length_cons, Finset.sum_range_succ']
    have hcong : ∀ i ∈ Finset.range rest.length,
        F (n + (i + 1), (a :: rest).getD (i + 1) dflt)
          = F (n + 1 + i, rest.getD i dflt) := by
      intro i _
      rw [List.getD_cons_succ, show n + (i + 1) = n + 1 + i by omega]
    rw [Finset.sum_congr rfl hcong, List.getD_cons_zero]
    simp only [Nat.add_zero]
    omega

/-- `List.enum` version of `enumFrom_map_sum`. -/
lemma enum_map_sum {α : Type} (F : Nat × α → Nat) (dflt : α) (l : List α) :
    (l.enum.map F).sum = ∑ i in Finset.range l.length, F (i, l.getD i dflt) := by
  rw [show l.enum = List.enumFrom 0 l from rfl, enumFrom_map_sum F dflt l 0]
  refine Finset.sum_congr rfl fun i _ => ?_
  rw [Nat.zero_add]

/-- Sum of a map, as a `Finset.range` sum. -/
lemma map_sum_eq {α : Type} (f : α → Nat) (dflt : α) (l : List α) :
    (l.map f).sum = ∑ i in Finset.range l.length, f (l.getD i dflt) := by
  induction l with
  | nil => simp
  | cons a rest ih =>
    rw [List.map_cons, List.sum_cons, List.length_cons, Finset.sum_range_succ', ih]
    have hcong : ∀ i ∈ Finset.range rest.length,
        f ((a :: rest).getD (i + 1) dflt) = f (rest.getD i dflt) := by
      intro i _
      rw [List.getD_cons_succ]
    rw [Finset.sum_congr rfl hcong, List.getD_cons_zero]
    omega

/-- Writing one cell exchanges its contribution in an indexed sum. -/
lemma sum_range_set {α : Type} (F : Nat → α → Nat) (dflt : α) (l : List α)
    (j : Nat) (x : α) (h : j < l.length) :
    (∑ i in Finset.range l.length, F i ((l.set j x).getD i dflt)) + F j (l.getD j dflt)
      = (∑ i in Finset.range l.length, F i (l.getD i dflt)) + F j x := by
  have h1 : ∑ i in Finset.range l.length, F i ((l.set j x).getD i dflt)
      = F j ((l.set j x).getD j dflt)
        + ∑ i in (Finset.range l.length).erase j, F i ((l.set j x).getD i dflt) :=
    (Finset.add_sum_erase _ _ (Finset.mem_range.mpr h)).symm
  have h2 : ∑ i in Finset.range l.length, F i (l.getD i dflt)
      = F j (l.getD j dflt) + ∑ i in (Finset.range l.length).erase j, F i (l.getD i dflt) :=
    (Finset.add_sum_erase _ _ (Finset.mem_range.mpr h)).symm
  have h3 : ∑ i in (Finset.range l.length).erase j, F i ((l.set j x).getD i dflt)
      = ∑ i in (Finset.range l.length).erase j, F i (l.getD i dflt) := by
    refine Finset.sum_congr rfl fun i hi => ?_
    rw [getD_set_ne _ _ _ _ _ fun hh => (Finset.ne_of_mem_erase hi) hh.symm]
  have h4 : (l.set j x).getD j dflt = x := getD_set_self _ _ _ _ h
  rw [h1, h2, h3, h4]
  omega

/-- The parametrized heuristic as a double `Finset.range` sum. -/
lemma heuristicK_eq_sum (k : Nat) (s : GameState) :
    heuristicK k s
      = (∑ pos in Finset.range s.1.length, hallContributionK k pos (s.1.getD pos '.'))
        + ∑ i in Finset.range s.2.length,
            ∑ dd in Finset.range (s.2.getD i []).length,
              roomContributionK k i dd ((s.2.getD i []).getD dd '.') := by
  unfold heuristicK
  rw [enum_map_sum (fun po : Nat × Char => hallContributionK k po.1 po.2) '.']
  rw [enum_map_sum
      (fun ir : Nat × List Char =>
        (ir.2.enum.map fun dc => roomContributionK k ir.1 dc.1 dc.2).sum) []]
  congr 1
  refine Finset.sum_congr rfl fun i _ => ?_
  exact enum_map_sum (fun dc : Nat × Char => roomContributionK k i dc.1 dc.2) '.'
    (s.2.getD i [])

/-- The misplaced-unit cost as a double `Finset.range` sum. -/
lemma misplacedCost_eq_sum (s : GameState) :
    misplacedCost s
      = (∑ pos in Finset.range s.1.length, hallMisplaced (s.1.getD pos '.'))
        + ∑ i in Finset.range s.2.length,
            ∑ dd in Finset.range (s.2.getD i []).length,
              roomMisplaced i ((s.2.getD i []).getD dd '.') := by
  unfold misplacedCost
  rw [map_sum_eq hallMisplaced '.']
  rw [enum_map_sum (fun ir : Nat × List Char => (ir.2.map (roomMisplaced ir.1)).sum) []]
  congr 1
  refine Finset.sum_congr rfl fun i _ => ?_
  exact map_sum_eq (roomMisplaced i) '.' _

/-- Per-step costs never exceed 1000. -/
lemma COSTS_le (c : Char) : COSTS c ≤ 1000 := by
  unfold COSTS
  split <;> omega

/-- A unit sitting in the room of its own index contributes nothing
(either the types match or the cell holds no real unit and costs 0). -/
lemma roomContributionK_self (k d : Nat) (obj : Char) :
    roomContributionK k (abcdIndex obj) d obj = 0 := by
  by_cases hA : obj = 'A'
  · subst hA; rfl
  by_cases hB : obj = 'B'
  · subst hB; rfl
  by_cases hC : obj = 'C'
  · subst hC; rfl
  by_cases hD : obj = 'D'
  · subst hD; rfl
  have hcost : COSTS obj = 0 := by
    unfold COSTS
    split <;> simp_all
  simp [roomContributionK, hcost]

/-- Entrance columns agree with the per-type lookup for unit letters,
and otherwise the unit costs nothing. -/
lemma roomPos_or_free (obj : Char) :
    ROOM_INDICES.getD (abcdIndex obj) 0 = TARGET_ROOM_POS obj ∨ COSTS obj = 0 := by
  by_cases hA : obj = 'A'
  · subst hA; exact Or.inl rfl
  by_cases hB : obj = 'B'
  · subst hB; exact Or.inl rfl
  by_cases hC : obj = 'C'
  · subst hC; exact Or.inl rfl
  by_cases hD : obj = 'D'
  · subst hD; exact Or.inl rfl
  refine Or.inr ?_
  unfold COSTS
  split <;> simp_all

/-- Arithmetic of the room-entry overcharge. -/
lemma entry_charge_le (A k d c : Nat) (hc : c ≤ 1000) :
    (A + k) * c ≤ (A + d + 1) * c + (k - 1) * 1000 := by
  rcases le_or_lt k (d + 1) with hk | hk
  · exact Nat.le_trans (Nat.mul_le_mul_right c (by omega)) (Nat.le_add_right _ _)
  · rw [show A + k = (A + d + 1) + (k - d - 1) by omega, Nat.add_mul]
    have h1 : (k - d - 1) * c ≤ (k - 1) * 1000 := Nat.mul_le_mul (by omega) hc
    omega

/-- One hallway-to-room move decreases the parametrized heuristic by the
unit's corridor contribution; the step cost covers it up to the
room-entry overcharge `(k-1)·1000`. -/
lemma heuristicK_hall_entry (k : Nat) {s : GameState} {pos : Nat} {p : GameState × Nat}
    (hwf : WF s) (h : p ∈ moves_from_hallway s pos) :
    heuristicK k s ≤ p.2 + heuristicK k p.1 + (k - 1) * 1000 := by
  obtain ⟨hcorlen, h4, hrooms⟩ := hwf
  obtain ⟨obj, d, hobj, hne, hdlt, hdE, hdMax, hp1, hp2⟩ := moves_from_hallway_shape h
  have htid := abcdIndex_lt obj
  have hposlen : pos < s.1.length := by
    by_contra hge
    rw [getD_of_length_le (Nat.le_of_not_lt hge)] at hobj
    exact hne hobj.symm
  have hlenroom : (s.2.getD (abcdIndex obj) []).length = ROOM_DEPTH :=
    hrooms _ (getD_mem _ _ [] (by omega))
  -- corridor sums
  have hcor := sum_range_set (hallContributionK k) '.' s.1 pos '.' hposlen
  rw [hobj, show hallContributionK k pos '.' = 0 from rfl] at hcor
  -- inner room sum
  have hinner := sum_range_set (roomContributionK k (abcdIndex obj)) '.'
      (s.2.getD (abcdIndex obj) []) d obj (by omega)
  rw [hdE, show roomContributionK k (abcdIndex obj) d '.' = 0 from rfl,
    roomContributionK_self k d obj] at hinner
  -- outer room sum
  have hout := sum_range_set
      (fun i room => ∑ dd in Finset.range room.length,
        roomContributionK k i dd (room.getD dd '.'))
      [] s.2 (abcdIndex obj) ((s.2.getD (abcdIndex obj) []).set d obj) (by omega)
  rw [hp2]
  rw [heuristicK_eq_sum, heuristicK_eq_sum, hp1]
  dsimp only at hout ⊢
  simp only [List.length_set] at hout ⊢
  -- remaining: corridor inequality
  have hbound : hallContributionK k pos obj
      ≤ (Nat.dist pos (ROOM_INDICES.getD (abcdIndex obj) 0) + d + 1) * COSTS obj
        + (k - 1) * 1000 := by
    rcases roomPos_or_free obj with hpos' | hfree
    · rw [hpos']
      unfold hallContributionK
      rw [if_neg (by simp only [beq_iff_eq]; exact fun hh => hne hh)]
      exact entry_charge_le _ k d _ (COSTS_le obj)
    · unfold hallContributionK
      rw [hfree, Nat.mul_zero, Nat.mul_zero]
      split <;> omega
  omega

/-- One room-to-hallway move exchanges the unit's room contribution for
its corridor contribution; the step cost covers the exchange exactly
(triangle inequality on corridor distances). -/
lemma heuristicK_room_exit (k : Nat) {s : GameState} {rid : Nat} {p : GameState × Nat}
    (hwf : WF s) (hrid : rid < 4) (h : p ∈ moves_to_target s rid) :
    heuristicK k s ≤ p.2 + heuristicK k p.1 := by
  obtain ⟨hcorlen, h4, hrooms⟩ := hwf
  have hlenroom : (s.2.getD rid []).length = ROOM_DEPTH :=
    hrooms _ (getD_mem _ _ [] (by omega))
  obtain ⟨pos, hposlt, hdot, hfo, hocc, hp1, hp2⟩ := moves_to_target_shape hlenroom h
  have hposlen : pos < s.1.length := by
    rw [hcorlen]
    exact hposlt
  -- corridor sums
  have hcor := sum_range_set (hallContributionK k) '.' s.1 pos
      ((s.2.getD rid []).getD (firstOccupied (s.2.getD rid [])) '.') hposlen
  rw [hdot, show hallContributionK k pos '.' = 0 from rfl] at hcor
  -- inner room sum
  have hinner := sum_range_set (roomContributionK k rid) '.'
      (s.2.getD rid []) (firstOccupied (s.2.getD rid [])) '.' hfo
  rw [show roomContributionK k rid (firstOccupied (s.2.getD rid [])) '.' = 0 from rfl]
    at hinner
  -- outer room sum
  have hout := sum_range_set
      (fun i room => ∑ dd in Finset.range room.length,
        roomContributionK k i dd (room.getD dd '.'))
      [] s.2 rid ((s.2.getD rid []).set (firstOccupied (s.2.getD rid [])) '.') (by omega)
  rw [hp2]
  rw [heuristicK_eq_sum, heuristicK_eq_sum, hp1]
  dsimp only at hout ⊢
  simp only [List.length_set] at hout ⊢
  -- bound the released unit's room contribution
  have hbound : roomContributionK k rid (firstOccupied (s.2.getD rid []))
      ((s.2.getD rid []).getD (firstOccupied (s.2.getD rid [])) '.')
      ≤ (firstOccupied (s.2.getD rid []) + 1 + Nat.dist pos (ROOM_INDICES.getD rid 0))
          * COSTS ((s.2.getD rid []).getD (firstOccupied (s.2.getD rid [])) '.')
        + hallContributionK k pos
            ((s.2.getD rid []).getD (firstOccupied (s.2.getD rid [])) '.') := by
    set obj := (s.2.getD rid []).getD (firstOccupied (s.2.getD rid [])) '.' with hobjdef
    unfold roomContributionK hallContributionK
    by_cases htgt : obj = targetChar rid
    · rw [if_neg (by simp only [beq_iff_eq]; exact hocc),
        if_pos (by simp only [beq_iff_eq]; exact htgt)]
      exact Nat.zero_le _
    · rw [if_neg (by simp only [beq_iff_eq]; exact hocc),
        if_neg (by simp only [beq_iff_eq]; exact htgt),
        if_neg (by simp only [beq_iff_eq]; exact hocc)]
      have htri := Nat.dist.triangle_inequality (ROOM_INDICES.getD rid 0) pos
          (TARGET_ROOM_POS obj)
      rw [← Nat.add_mul]
      refine Nat.mul_le_mul_right _ ?_
      rw [Nat.dist_comm (ROOM_INDICES.getD rid 0) pos] at htri
      omega
  omega

/-- The source's heuristic is the parametrized heuristic at
`k = ROOM_DEPTH`. -/
lemma heuristic_eq_K (s : GameState) : heuristic s = heuristicK ROOM_DEPTH s := rfl

/-- Shape well-formedness is preserved by every generated move. -/
lemma WF_preserved {s : GameState} {p : GameState × Nat} (hwf : WF s)
    (h : p ∈ neighbors s) : WF p.1 := by
  obtain ⟨hcor, h4, hrooms⟩ := hwf
  rw [mem_neighbors] at h
  rcases h with ⟨i, hi, h⟩ | ⟨pos, hpos, h⟩
  · have hlen : (s.2.getD i []).length = ROOM_DEPTH :=
      hrooms _ (getD_mem s.2 i [] (by omega))
    obtain ⟨pos, hposlt, hdot, hfo, hocc, hp1, _⟩ := moves_to_target_shape hlen h
    rw [hp1]
    refine ⟨by simpa using hcor, by simpa using h4, ?_⟩
    intro r hr
    rcases List.mem_or_eq_of_mem_set hr with hr' | rfl
    · exact hrooms r hr'
    · simpa using hlen
  · obtain ⟨obj, d, hobj, hne, hdlt, hdE, _, hp1, _⟩ := moves_from_hallway_shape h
    have htid := abcdIndex_lt obj
    have hlen : (s.2.getD (abcdIndex obj) []).length = ROOM_DEPTH :=
      hrooms _ (getD_mem s.2 _ [] (by omega))
    rw [hp1]
    refine ⟨by simpa using hcor, by simpa using h4, ?_⟩
    intro r hr
    rcases List.mem_or_eq_of_mem_set hr with hr' | rfl
    · exact hrooms r hr'
    · simpa using hlen

/-- Unit balance is preserved by every generated move. -/
lemma Balanced_preserved {s : GameState} {p : GameState × Nat} (hwf : WF s)
    (hbal : Balanced s) (h : p ∈ neighbors s) : Balanced p.1 := by
  intro t ht
  rw [countType_moves hwf h t]
  exact hbal t ht

/-- Occurrence count in a two-cell list whose cells both hold `x`. -/
lemma count_of_uniform_two {l : List Char} {x : Char} (hlen : l.length = 2)
    (hall : ∀ dd, dd < l.length → l.getD dd '.' = x) (t : Char) :
    l.count t = if x == t then 2 else 0 := by
  obtain ⟨a, b, rfl⟩ := List.length_eq_two.mp hlen
  have ha : a = x := hall 0 (by simp)
  have hb : b = x := hall 1 (by simp)
  rw [ha, hb, List.count_cons, List.count_cons, List.count_nil]
  cases hxt : (x == t) <;> simp [hxt]

/-- At a goal state of a balanced well-formed instance the parametrized
heuristic vanishes: the rooms are filled with their own types and the
corridor holds no unit. -/
lemma heuristicK_goal_zero (k : Nat) {s : GameState} (hwf : WF s) (hbal : Balanced s)
    (hg : is_completed s = true) : heuristicK k s = 0 := by
  obtain ⟨hcor, h4, hrooms⟩ := hwf
  have hroomcell : ∀ i, i < 4 → ∀ dd, dd < (s.2.getD i []).length →
      (s.2.getD i []).getD dd '.' = targetChar i := by
    intro i hi dd hdd
    unfold is_completed at hg
    rw [List.all_eq_true] at hg
    have h1 := hg i (List.mem_range.mpr hi)
    rw [List.all_eq_true] at h1
    exact beq_iff_eq.mp (h1 _ (getD_mem _ dd '.' hdd))
  have hcorfree : ∀ t, t ∈ ['A', 'B', 'C', 'D'] → s.1.count t = 0 := by
    intro t ht
    have hb := hbal t ht
    unfold countType at hb
    have hsum : (s.2.map (List.count t)).sum = 2 := by
      rw [map_sum_eq (List.count t) [] s.2, h4]
      have hcong : ∀ i ∈ Finset.range 4, List.count t (s.2.getD i [])
          = if targetChar i == t then 2 else 0 := by
        intro i hi
        have hlen : (s.2.getD i []).length = ROOM_DEPTH :=
          hrooms _ (getD_mem s.2 i [] (by rw [h4]; exact Finset.mem_range.mp hi))
        exact count_of_uniform_two hlen
          (fun dd hdd => hroomcell i (Finset.mem_range.mp hi) dd hdd) t
      rw [Finset.sum_congr rfl hcong]
      have ht' : t = 'A' ∨ t = 'B' ∨ t = 'C' ∨ t = 'D' := by simpa using ht
      rcases ht' with rfl | rfl | rfl | rfl <;> decide
    rw [show ROOM_DEPTH = 2 from rfl] at hb
    omega
  rw [heuristicK_eq_sum]
  have hcorzero : ∀ pos ∈ Finset.range s.1.length,
      hallContributionK k pos (s.1.getD pos '.') = 0 := by
    intro pos hpos
    by_cases hdot : s.1.getD pos '.' = '.'
    · rw [hdot]
      rfl
    · have hmem : s.1.getD pos '.' ∈ s.1 := getD_mem _ _ '.' (Finset.mem_range.mp hpos)
      by_cases hunit : s.1.getD pos '.' ∈ ['A', 'B', 'C', 'D']
      · exact absurd hmem (List.count_eq_zero.mp (hcorfree _ hunit))
      · have hcost : COSTS (s.1.getD pos '.') = 0 := by
          unfold COSTS
          split <;> simp_all
        unfold hallContributionK
        rw [if_neg (by simp only [beq_iff_eq]; exact hdot), hcost, Nat.mul_zero]
  have hroomzero : ∀ i ∈ Finset.range s.2.length,
      (∑ dd in Finset.range (s.2.getD i []).length,
        roomContributionK k i dd ((s.2.getD i []).getD dd '.')) = 0 := by
    intro i hi
    have hi4 : i < 4 := by
      rw [Finset.mem_range, h4] at hi
      exact hi
    refine Finset.sum_eq_zero fun dd hdd => ?_
    rw [hroomcell i hi4 dd (Finset.mem_range.mp hdd)]
    interval_cases i <;> rfl
  rw [Finset.sum_eq_zero hcorzero, Finset.sum_eq_zero hroomzero]
  rfl

/-- Consistency of the lower-bound heuristic: a single generated move
never decreases it by more than the step cost. -/
lemma heuristicLow_consistent {s : GameState} {p : GameState × Nat} (hwf : WF s)
    (h : p ∈ neighbors s) : heuristicLow s ≤ p.2 + heuristicLow p.1 := by
  unfold heuristicLow
  rw [mem_neighbors] at h
  rcases h with ⟨i, hi, h⟩ | ⟨pos, hpos, h⟩
  · exact heuristicK_room_exit 1 hwf hi h
  · have := heuristicK_hall_entry 1 hwf h
    simpa using this

/-- The lower-bound heuristic is admissible: it never exceeds the cost
of any move sequence from the state to a goal state. -/
lemma heuristicLow_le_path {s g : GameState} {c : Nat} (hr : Reaches s g c) :
    WF s → Balanced s → is_completed g = true → heuristicLow s ≤ c := by
  induction hr with
  | refl w =>
    intro hwf hbal hg
    unfold heuristicLow
    rw [heuristicK_goal_zero 1 hwf hbal hg]
  | step hmem hr2 ih =>
    rename_i s1 t1 u1 c1 c2
    intro hwf hbal hg
    have hwf' : WF t1 := WF_preserved hwf hmem
    have hbal' : Balanced t1 := Balanced_preserved hwf hbal hmem
    have h2 := ih hwf' hbal' hg
    have h1 : heuristicLow s1 ≤ c1 + heuristicLow t1 := heuristicLow_consistent hwf hmem
    omega

/-- The source's heuristic splits as the admissible lower bound plus a
`(ROOM_DEPTH-1)`-step overcharge for every misplaced unit. -/
lemma heuristic_split (s : GameState) :
    heuristic s = heuristicLow s + (ROOM_DEPTH - 1) * misplacedCost s := by
  rw [heuristic_eq_K, show heuristicLow s = heuristicK 1 s from rfl]
  rw [heuristicK_eq_sum, heuristicK_eq_sum, misplacedCost_eq_sum]
  have hhall : ∀ pos obj, hallContributionK ROOM_DEPTH pos obj
      = hallContributionK 1 pos obj + (ROOM_DEPTH - 1) * hallMisplaced obj := by
    intro pos obj
    unfold hallContributionK hallMisplaced
    by_cases hdot : obj = '.'
    · simp [hdot]
    · simp only [beq_iff_eq, if_neg hdot]
      rw [show ROOM_DEPTH = 2 from rfl, show (2 : Nat) - 1 = 1 from rfl]
      ring
  have hroom : ∀ i dd obj, roomContributionK ROOM_DEPTH i dd obj
      = roomContributionK 1 i dd obj + (ROOM_DEPTH - 1) * roomMisplaced i obj := by
    intro i dd obj
    unfold roomContributionK roomMisplaced
    by_cases hdot : obj = '.'
    · simp [hdot]
    · by_cases htgt : obj = targetChar i
      · simp [hdot, htgt]
      · simp only [beq_iff_eq, if_neg hdot, if_neg htgt]
        rw [show ROOM_DEPTH = 2 from rfl, show (2 : Nat) - 1 = 1 from rfl]
        ring
  have h1 : (∑ pos in Finset.range s.1.length,
      hallContributionK ROOM_DEPTH pos (s.1.getD pos '.'))
      = (∑ pos in Finset.range s.1.length, hallContributionK 1 pos (s.1.getD pos '.'))
        + (ROOM_DEPTH - 1) * ∑ pos in Finset.range s.1.length,
            hallMisplaced (s.1.getD pos '.') := by
    rw [Finset.mul_sum, ← Finset.sum_add_distrib]
    exact Finset.sum_congr rfl fun pos _ => hhall pos _
  have h2 : (∑ i in Finset.range s.2.length,
      ∑ dd in Finset.range (s.2.getD i []).length,
        roomContributionK ROOM_DEPTH i dd ((s.2.getD i []).getD dd '.'))
      = (∑ i in Finset.range s.2.length,
          ∑ dd in Finset.range (s.2.getD i []).length,
            roomContributionK 1 i dd ((s.2.getD i []).getD dd '.'))
        + (ROOM_DEPTH - 1) * ∑ i in Finset.range s.2.length,
            ∑ dd in Finset.range (s.2.getD i []).length,
              roomMisplaced i ((s.2.getD i []).getD dd '.') := by
    rw [Finset.mul_sum, ← Finset.sum_add_distrib]
    refine Finset.sum_congr rfl fun i _ => ?_
    rw [Finset.mul_sum, ← Finset.sum_add_distrib]
    exact Finset.sum_congr rfl fun dd _ => hroom i dd _
  rw [h1, h2]
  ring

/-- Cell codes distinguish valid cells. -/
lemma cellCode_inj {c c' : Char} (h : validCell c = true) (h' : validCell c' = true)
    (hcode : cellCode c = cellCode c') : c = c' := by
  have hm : c = '.' ∨ c = 'A' ∨ c = 'B' ∨ c = 'C' ∨ c = 'D' := by
    simp only [validCell, Bool.or_eq_true, beq_iff_eq] at h
    tauto
  have hm' : c' = '.' ∨ c' = 'A' ∨ c' = 'B' ∨ c' = 'C' ∨ c' = 'D' := by
    simp only [validCell, Bool.or_eq_true, beq_iff_eq] at h'
    tauto
  rcases hm with rfl | rfl | rfl | rfl | rfl <;>
    rcases hm' with rfl | rfl | rfl | rfl | rfl <;>
      first
      | rfl
      | exact absurd hcode (by decide)

/-- The encoding is injective on well-formed states with valid cells. -/
lemma encodeState_inj {s t : GameState}
    (hswf : WF s) (hsv : ValidState s) (htwf : WF t) (htv : ValidState t)
    (h : encodeState s = encodeState t) : s = t := by
  obtain ⟨hs1, hs2, hs3⟩ := hswf
  obtain ⟨ht1, ht2, ht3⟩ := htwf
  have hcor : s.1 = t.1 := by
    refine List.ext_getElem (by rw [hs1, ht1]) fun i hi1 hi2 => ?_
    have hi11 : i < 11 := by rw [hs1] at hi1; exact hi1
    have hfun := congrFun (congrArg Prod.fst h) ⟨i, hi11⟩
    simp only [encodeState] at hfun
    have hv1 : validCell (s.1.getD i '.') = true := hsv.1 _ (getD_mem _ _ '.' hi1)
    have hv2 : validCell (t.1.getD i '.') = true := htv.1 _ (getD_mem _ _ '.' hi2)
    have := cellCode_inj hv1 hv2 hfun
    rwa [getD_eq_getElem _ _ _ hi1, getD_eq_getElem _ _ _ hi2] at this
  have hrooms : s.2 = t.2 := by
    refine List.ext_getElem (by rw [hs2, ht2]) fun i hi1 hi2 => ?_
    have hi4 : i < 4 := by rw [hs2] at hi1; exact hi1
    have hlen1 : s.2[i].length = ROOM_DEPTH := hs3 _ (List.getElem_mem hi1)
    have hlen2 : t.2[i].length = ROOM_DEPTH := ht3 _ (List.getElem_mem hi2)
    refine List.ext_getElem (by rw [hlen1, hlen2]) fun d hd1 hd2 => ?_
    have hd2' : d < 2 := by rw [hlen1] at hd1; exact hd1
    have hfun := congrFun (congrFun (congrArg Prod.snd h) ⟨i, hi4⟩) ⟨d, hd2'⟩
    simp only [encodeState] at hfun
    rw [getD_eq_getElem s.2 i [] hi1, getD_eq_getElem t.2 i [] hi2] at hfun
    have hv1 : validCell (s.2[i].getD d '.') = true :=
      hsv.2 _ (List.getElem_mem hi1) _ (getD_mem _ _ '.' hd1)
    have hv2 : validCell (t.2[i].getD d '.') = true :=
      htv.2 _ (List.getElem_mem hi2) _ (getD_mem _ _ '.' hd2)
    have := cellCode_inj hv1 hv2 hfun
    rwa [getD_eq_getElem _ _ _ hd1, getD_eq_getElem _ _ _ hd2] at this
  exact Prod.ext hcor hrooms

/-- Valid cells are preserved by every generated move: a move writes
only `'.'` or a cell read from the current state. -/
lemma ValidState_preserved {s : GameState} {p : GameState × Nat}
    (hv : ValidState s) (h : p ∈ neighbors s) : ValidState p.1 := by
  obtain ⟨hv1, hv2⟩ := hv
  have hdotvalid : validCell '.' = true := rfl
  rw [mem_neighbors] at h
  rcases h with ⟨i, hi, h⟩ | ⟨pos, hpos, h⟩
  · -- room-to-hallway: corridor gains the released unit, the room cell
    -- becomes empty
    rw [moves_to_target_eq] at h
    split at h
    · exact absurd h (List.not_mem_nil p)
    · split at h
      · exact absurd h (List.not_mem_nil p)
      · split at h
        · exact absurd h (List.not_mem_nil p)
        · rename_i hfo
          have hfo' : firstOccupied (s.2.getD i []) ≠ ROOM_DEPTH := by simpa using hfo
          have hobjvalid : validCell ((s.2.getD i []).getD
              (firstOccupied (s.2.getD i [])) '.') = true := by
            by_cases hin : firstOccupied (s.2.getD i []) < (s.2.getD i []).length
            · by_cases hi4 : i < s.2.length
              · exact hv2 _ (getD_mem _ _ [] hi4) _ (getD_mem _ _ '.' hin)
              · rw [getD_of_length_le (Nat.le_of_not_lt hi4)] at hin
                simp at hin
            · rw [getD_of_length_le (Nat.le_of_not_lt hin)]
              rfl
          rw [List.mem_append] at h
          have hshape : ∀ pos', p = roomExitMove s i (firstOccupied (s.2.getD i []))
              (ROOM_INDICES.getD i 0)
              ((s.2.getD i []).getD (firstOccupied (s.2.getD i [])) '.') pos' →
              ValidState p.1 := by
            rintro pos' rfl
            unfold roomExitMove
            constructor
            · intro c hc
              rcases List.mem_or_eq_of_mem_set hc with hc' | rfl
              · exact hv1 c hc'
              · exact hobjvalid
            · intro r hr c hc
              rcases List.mem_or_eq_of_mem_set hr with hr' | rfl
              · exact hv2 r hr' c hc
              · rcases List.mem_or_eq_of_mem_set hc with hc' | rfl
                · by_cases hi4 : i < s.2.length
                  · exact hv2 _ (getD_mem _ _ [] hi4) c hc'
                  · rw [getD_of_length_le (Nat.le_of_not_lt hi4)] at hc'
                    exact absurd hc' (List.not_mem_nil c)
                · exact hdotvalid
          rcases h with h | h
          · obtain ⟨pos', _, hpp⟩ := List.mem_map.mp h
            exact hshape pos' hpp.symm
          · obtain ⟨pos', _, hpp⟩ := List.mem_map.mp h
            exact hshape pos' hpp.symm
  · obtain ⟨obj, d, hobj, hne, hdlt, hdE, _, hp1, _⟩ := moves_from_hallway_shape h
    have hposlen : pos < s.1.length := by
      by_contra hge
      rw [getD_of_length_le (Nat.le_of_not_lt hge)] at hobj
      exact hne hobj.symm
    have hobjvalid : validCell obj = true := by
      rw [← hobj]
      exact hv1 _ (getD_mem _ _ '.' hposlen)
    rw [hp1]
    constructor
    · intro c hc
      rcases List.mem_or_eq_of_mem_set hc with hc' | rfl
      · exact hv1 c hc'
      · exact hdotvalid
    · intro r hr c hc
      rcases List.mem_or_eq_of_mem_set hr with hr' | rfl
      · exact hv2 r hr' c hc
      · rcases List.mem_or_eq_of_mem_set hc with hc' | rfl
        · by_cases hi4 : abcdIndex obj < s.2.length
          · exact hv2 _ (getD_mem _ _ [] hi4) c hc'
          · rw [getD_of_length_le (Nat.le_of_not_lt hi4)] at hc'
            exact absurd hc' (List.not_mem_nil c)
        · exact hobjvalid

/-- A key is absent from the map exactly when the lookup fails. -/
lemma lookupCost_none_iff : ∀ (m : CostMap) (s : GameState),
    lookupCost m s = none ↔ s ∉ m.map Prod.fst := by
  intro m
  induction m with
  | nil => intro s; simp [lookupCost]
  | cons p rest ih =>
    intro s
    rw [show lookupCost (p :: rest) s
        = if p.1 == s then some p.2 else lookupCost rest s from rfl]
    by_cases hps : (p.1 == s) = true
    · rw [if_pos hps]
      have := eq_of_beq hps
      simp [this]
    · rw [if_neg hps, ih]
      have hne : p.1 ≠ s := by
        intro hh
        exact hps (by simp [hh])
      simp only [List.map_cons, List.mem_cons, not_or]
      constructor
      · intro hnot
        exact ⟨fun hh => hne hh.symm, hnot⟩
      · intro hh
        exact hh.2

/-- Overwriting an existing key keeps the key list and the length, and
exchanges the old value for the new one in the total. -/
lemma insertCost_found : ∀ (m : CostMap) (s : GameState) (c v : Nat),
    lookupCost m s = some v →
    (insertCost m s c).map Prod.fst = m.map Prod.fst
    ∧ (insertCost m s c).length = m.length
    ∧ mapTotal (insertCost m s c) + v = mapTotal m + c := by
  intro m
  induction m with
  | nil => intro s c v h; simp [lookupCost] at h
  | cons p rest ih =>
    intro s c v h
    rw [show lookupCost (p :: rest) s
        = if p.1 == s then some p.2 else lookupCost rest s from rfl] at h
    rw [show insertCost (p :: rest) s c
        = if p.1 == s then (s, c) :: rest else p :: insertCost rest s c from rfl]
    by_cases hps : (p.1 == s) = true
    · rw [if_pos hps] at h ⊢
      obtain rfl : p.2 = v := by simpa using h
      have hs := eq_of_beq hps
      refine ⟨by simp [hs], by simp, ?_⟩
      unfold mapTotal
      simp only [List.map_cons, List.sum_cons]
      omega
    · rw [if_neg hps] at h ⊢
      obtain ⟨h1, h2, h3⟩ := ih s c v h
      refine ⟨by simp [h1], by simp [h2], ?_⟩
      unfold mapTotal at h3 ⊢
      simp only [List.map_cons, List.sum_cons]
      omega

/-- Inserting a fresh key appends it, growing the length by one and the
total by the new value. -/
lemma insertCost_new : ∀ (m : CostMap) (s : GameState) (c : Nat),
    lookupCost m s = none →
    (insertCost m s c).map Prod.fst = m.map Prod.fst ++ [s]
    ∧ (insertCost m s c).length = m.length + 1
    ∧ mapTotal (insertCost m s c) = mapTotal m + c := by
  intro m
  induction m with
  | nil =>
    intro s c _
    refine ⟨rfl, rfl, ?_⟩
    unfold mapTotal insertCost
    simp
  | cons p rest ih =>
    intro s c h
    rw [show lookupCost (p :: rest) s
        = if p.1 == s then some p.2 else lookupCost rest s from rfl] at h
    rw [show insertCost (p :: rest) s c
        = if p.1 == s then (s, c) :: rest else p :: insertCost rest s c from rfl]
    by_cases hps : (p.1 == s) = true
    · rw [if_pos hps] at h
      simp at h
    · rw [if_neg hps] at h ⊢
      obtain ⟨h1, h2, h3⟩ := ih s c h
      refine ⟨by simp [h1], by simp [h2], ?_⟩
      unfold mapTotal at h3 ⊢
      simp only [List.map_cons, List.sum_cons]
      omega

/-- Membership after a dictionary assignment. -/
lemma insertCost_mem : ∀ (m : CostMap) (s : GameState) (c : Nat) (q : GameState × Nat),
    q ∈ insertCost m s c → q ∈ m ∨ q = (s, c) := by
  intro m
  induction m with
  | nil =>
    intro s c q h
    rw [show insertCost [] s c = [(s, c)] from rfl] at h
    exact Or.inr (List.mem_singleton.mp h)
  | cons p rest ih =>
    intro s c q h
    rw [show insertCost (p :: rest) s c
        = if p.1 == s then (s, c) :: rest else p :: insertCost rest s c from rfl] at h
    by_cases hps : (p.1 == s) = true
    · rw [if_pos hps] at h
      rcases List.mem_cons.mp h with rfl | h'
      · exact Or.inr rfl
      · exact Or.inl (List.mem_cons_of_mem p h')
    · rw [if_neg hps] at h
      rcases List.mem_cons.mp h with rfl | h'
      · exact Or.inl (List.mem_cons_self _ _)
      · rcases ih s c q h' with h'' | h''
        · exact Or.inl (List.mem_cons_of_mem p h'')
        · exact Or.inr h''

/-- Effect of one relaxation step: nothing happens, or a fresh key is
recorded and pushed, or an existing key strictly improves and is
pushed. -/
lemma relaxStep_cases (cost : Nat) (acc : List Entry × CostMap) (sc : GameState × Nat) :
    relaxStep cost acc sc = acc
    ∨ ((relaxStep cost acc sc).1 = (cost + sc.2 + heuristic sc.1, cost + sc.2, sc.1) :: acc.1
        ∧ (relaxStep cost acc sc).2 = insertCost acc.2 sc.1 (cost + sc.2)
        ∧ (relaxStep cost acc sc).2.map Prod.fst = acc.2.map Prod.fst ++ [sc.1]
        ∧ (relaxStep cost acc sc).2.length = acc.2.length + 1
        ∧ sc.1 ∉ acc.2.map Prod.fst)
    ∨ ((relaxStep cost acc sc).1 = (cost + sc.2 + heuristic sc.1, cost + sc.2, sc.1) :: acc.1
        ∧ (relaxStep cost acc sc).2 = insertCost acc.2 sc.1 (cost + sc.2)
        ∧ (relaxStep cost acc sc).2.map Prod.fst = acc.2.map Prod.fst
        ∧ (relaxStep cost acc sc).2.length = acc.2.length
        ∧ mapTotal (relaxStep cost acc sc).2 < mapTotal acc.2) := by
  unfold relaxStep
  dsimp only
  cases hlook : lookupCost acc.2 sc.1 with
  | none =>
    obtain ⟨h1, h2, h3⟩ := insertCost_new acc.2 sc.1 (cost + sc.2) hlook
    right
    left
    rw [show (match (none : Option Nat) with
        | none => true
        | some old => decide (cost + sc.2 < old)) = true from rfl, if_pos rfl]
    exact ⟨rfl, rfl, h1, h2, (lookupCost_none_iff _ _).mp hlook⟩
  | some old =>
    rw [show (match (some old : Option Nat) with
        | none => true
        | some o => decide (cost + sc.2 < o)) = decide (cost + sc.2 < old) from rfl]
    by_cases himp : cost + sc.2 < old
    · rw [if_pos (by simpa using himp)]
      obtain ⟨h1, h2, h3⟩ := insertCost_found acc.2 sc.1 (cost + sc.2) old hlook
      right
      right
      refine ⟨rfl, rfl, h1, h2, ?_⟩
      show mapTotal (insertCost acc.2 sc.1 (cost + sc.2)) < mapTotal acc.2
      omega
    · rw [if_neg (by simpa using himp)]
      exact Or.inl rfl

/-- The relaxation fold never shrinks the bookkeeping map. -/
lemma relax_fold_len_mono (cost : Nat) : ∀ (l : List (GameState × Nat)) (acc),
    acc.2.length ≤ (l.foldl (relaxStep cost) acc).2.length := by
  intro l
  induction l with
  | nil => intro acc; exact Nat.le_refl _
  | cons sc rest ih =>
    intro acc
    rw [List.foldl_cons]
    refine Nat.le_trans ?_ (ih (relaxStep cost acc sc))
    rcases relaxStep_cases cost acc sc with h | ⟨_, _, _, h, _⟩ | ⟨_, _, _, h, _⟩
    · rw [h]
    · omega
    · omega

/-- Trichotomy for the whole relaxation fold: the map grows, or it keeps
its keys and its total strictly drops, or nothing was pushed at all. -/
lemma relax_fold_cases (cost : Nat) : ∀ (l : List (GameState × Nat)) (acc),
    acc.2.length < (l.foldl (relaxStep cost) acc).2.length
    ∨ ((l.foldl (relaxStep cost) acc).2.length = acc.2.length
        ∧ mapTotal (l.foldl (relaxStep cost) acc).2 < mapTotal acc.2)
    ∨ (l.foldl (relaxStep cost) acc) = acc := by
  intro l
  induction l with
  | nil => intro acc; right; right; rfl
  | cons sc rest ih =>
    intro acc
    rw [List.foldl_cons]
    rcases relaxStep_cases cost acc sc with hstep | ⟨_, _, _, hlen, _⟩ | ⟨_, _, _, hlen, htot⟩
    · rw [hstep]
      exact ih acc
    · left
      have := relax_fold_len_mono cost rest (relaxStep cost acc sc)
      omega
    · rcases ih (relaxStep cost acc sc) with h | ⟨h1, h2⟩ | h
      · left
        omega
      · right
        left
        exact ⟨by omega, by omega⟩
      · right
        left
        rw [h]
        exact ⟨hlen, htot⟩

/-- The relaxation fold preserves the search invariant. -/
lemma relax_fold_SearchInv (cost : Nat) :
    ∀ (l : List (GameState × Nat)) (acc : List Entry × CostMap),
      SearchInv acc.1 acc.2 →
      (∀ sc ∈ l, WF sc.1 ∧ ValidState sc.1) →
      SearchInv (l.foldl (relaxStep cost) acc).1 (l.foldl (relaxStep cost) acc).2 := by
  intro l
  induction l with
  | nil => intro acc h _; exact h
  | cons sc rest ih =>
    intro acc hacc hl
    rw [List.foldl_cons]
    refine ih _ ?_ (fun x hx => hl x (List.mem_cons_of_mem _ hx))
    have hsc := hl sc (List.mem_cons_self _ _)
    rcases relaxStep_cases cost acc sc with hstep
      | ⟨hq, hm, hkeys, _, hnotmem⟩ | ⟨hq, hm, hkeys, _, _⟩
    · rw [hstep]
      exact hacc
    · refine ⟨?_, ?_, ?_⟩
      · intro e he
        rw [hq] at he
        rcases List.mem_cons.mp he with rfl | he'
        · exact hsc
        · exact hacc.qwf e he'
      · intro q hq'
        rw [hm] at hq'
        rcases insertCost_mem _ _ _ q hq' with h' | rfl
        · exact hacc.mwf q h'
        · exact hsc
      · rw [hkeys]
        refine List.Nodup.append hacc.mnodup (List.nodup_singleton _) ?_
        intro a ha
        simp only [List.mem_singleton]
        rintro rfl
        exact hnotmem ha
    · refine ⟨?_, ?_, ?_⟩
      · intro e he
        rw [hq] at he
        rcases List.mem_cons.mp he with rfl | he'
        · exact hsc
        · exact hacc.qwf e he'
      · intro q hq'
        rw [hm] at hq'
        rcases insertCost_mem _ _ _ q hq' with h' | rfl
        · exact hacc.mwf q h'
        · exact hsc
      · rw [hkeys]
        exact hacc.mnodup

/-- Popping a non-empty queue always yields an entry. -/
lemma popMin_cons_ne_none (a : Entry) (as : List Entry) : popMin (a :: as) ≠ none := by
  cases hrec : popMin as with
  | none => simp [popMin, hrec]
  | some pr =>
    obtain ⟨m, r⟩ := pr
    by_cases hlt : entryLt m a = true <;> simp [popMin, hrec, hlt]

/-- An empty pop means an empty queue. -/
lemma popMin_eq_none : ∀ {q : List Entry}, popMin q = none ↔ q = [] := by
  intro q
  cases q with
  | nil => simp [popMin]
  | cons a as =>
    constructor
    · intro h
      exact absurd h (popMin_cons_ne_none a as)
    · intro h
      cases h

/-- Popping shortens the queue by exactly one entry. -/
lemma popMin_length : ∀ {q : List Entry} {e : Entry} {rest : List Entry},
    popMin q = some (e, rest) → q.length = rest.length + 1 := by
  intro q
  induction q with
  | nil => intro e rest h; simp [popMin] at h
  | cons a as ih =>
    intro e rest h
    cases hrec : popMin as with
    | none =>
      simp only [popMin, hrec, Option.some.injEq, Prod.mk.injEq] at h
      obtain ⟨rfl, rfl⟩ := h
      have has : as = [] := popMin_eq_none.mp hrec
      subst has
      rfl
    | some pr =>
      obtain ⟨m, rest'⟩ := pr
      simp only [popMin, hrec] at h
      by_cases hlt : entryLt m a = true
      · rw [if_pos hlt] at h
        simp only [Option.some.injEq, Prod.mk.injEq] at h
        obtain ⟨rfl, rfl⟩ := h
        have := ih hrec
        simp [this]
      · rw [if_neg hlt] at h
        simp only [Option.some.injEq, Prod.mk.injEq] at h
        obtain ⟨rfl, rfl⟩ := h
        rfl

/-- Distinct well-formed valid keys are at most `STATE_BOUND` many. -/
lemma keys_length_le (m : CostMap)
    (hnodup : (m.map Prod.fst).Nodup)
    (hval : ∀ q ∈ m, WF q.1 ∧ ValidState q.1) :
    m.length ≤ STATE_BOUND := by
  have hinj : ∀ x ∈ m.map Prod.fst, ∀ y ∈ m.map Prod.fst,
      encodeState x = encodeState y → x = y := by
    intro x hx y hy hxy
    obtain ⟨qx, hqx, rfl⟩ := List.mem_map.mp hx
    obtain ⟨qy, hqy, rfl⟩ := List.mem_map.mp hy
    exact encodeState_inj (hval qx hqx).1 (hval qx hqx).2 (hval qy hqy).1 (hval qy hqy).2 hxy
  have hnd : ((m.map Prod.fst).map encodeState).Nodup := List.Nodup.map_on hinj hnodup
  have hcard := List.Nodup.length_le_card hnd
  unfold STATE_BOUND
  rw [List.length_map, List.length_map] at hcard
  exact hcard

/-- One-step unfolding of the search loop. -/
lemma a_asterisk_go_succ (goal_test : GameState → Bool) (n : Nat) (queue : List Entry)
    (costs : CostMap) :
    a_asterisk_go goal_test (n + 1) queue costs
      = match popMin queue with
        | none => some none
        | some (e, rest) =>
          if goal_test e.2.2 then some (some e.2.1)
          else
            let qm := (neighbors e.2.2).foldl (relaxStep e.2.1) (rest, costs)
            a_asterisk_go goal_test n qm.1 qm.2 := rfl

/-- The search loop exits: from any configuration satisfying the
invariant, some fuel suffices for the loop to return — either a cost or
the absent value.  Each iteration either records a state never seen
before (at most `STATE_BOUND` times), or strictly lowers a recorded
cost, or only shortens the queue. -/
lemma a_asterisk_go_exits : ∀ (a b c : Nat) (queue : List Entry) (costs : CostMap),
    SearchInv queue costs →
    STATE_BOUND - costs.length = a → mapTotal costs = b → queue.length = c →
    ∃ n r, a_asterisk_go is_completed n queue costs = some r := by
  intro a
  induction a using Nat.strong_induction_on with
  | _ a iha =>
    intro b
    induction b using Nat.strong_induction_on with
    | _ b ihb =>
      intro c
      induction c using Nat.strong_induction_on with
      | _ c ihc =>
        intro queue costs hinv ha hb hc
        cases hpop : popMin queue with
        | none =>
          exact ⟨0 + 1, none, by rw [a_asterisk_go_succ, hpop]⟩
        | some pr =>
          obtain ⟨e, rest⟩ := pr
          by_cases hgoal : is_completed e.2.2 = true
          · refine ⟨0 + 1, some e.2.1, ?_⟩
            rw [a_asterisk_go_succ, hpop]
            show (if is_completed e.2.2 then some (some e.2.1) else _) = _
            rw [if_pos hgoal]
          · obtain ⟨hmem, hsub⟩ := popMin_sub hpop
            have hrestlen := popMin_length hpop
            have hewf := hinv.qwf e hmem
            have hl : ∀ sc ∈ neighbors e.2.2, WF sc.1 ∧ ValidState sc.1 := by
              intro sc hsc
              exact ⟨WF_preserved hewf.1 hsc, ValidState_preserved hewf.2 hsc⟩
            have hinvrest : SearchInv rest costs :=
              ⟨fun x hx => hinv.qwf x (hsub x hx), hinv.mwf, hinv.mnodup⟩
            have hinv' := relax_fold_SearchInv e.2.1 (neighbors e.2.2) (rest, costs)
              hinvrest hl
            have hcard : ((neighbors e.2.2).foldl (relaxStep e.2.1) (rest, costs)).2.length
                ≤ STATE_BOUND :=
              keys_length_le _ hinv'.mnodup hinv'.mwf
            have hstep : ∃ n r, a_asterisk_go is_completed n
                ((neighbors e.2.2).foldl (relaxStep e.2.1) (rest, costs)).1
                ((neighbors e.2.2).foldl (relaxStep e.2.1) (rest, costs)).2 = some r := by
              rcases relax_fold_cases e.2.1 (neighbors e.2.2) (rest, costs)
                with hgrow | ⟨hlen, htot⟩ | heq
              · have hgrow' : costs.length
                    < ((neighbors e.2.2).foldl (relaxStep e.2.1) (rest, costs)).2.length :=
                  hgrow
                exact iha (STATE_BOUND
                    - ((neighbors e.2.2).foldl (relaxStep e.2.1) (rest, costs)).2.length)
                  (by omega) _ _ _ _ hinv' rfl rfl rfl
              · have hlen' : ((neighbors e.2.2).foldl (relaxStep e.2.1) (rest, costs)).2.length
                    = costs.length := hlen
                have htot' : mapTotal ((neighbors e.2.2).foldl (relaxStep e.2.1)
                    (rest, costs)).2 < mapTotal costs := htot
                exact ihb (mapTotal ((neighbors e.2.2).foldl (relaxStep e.2.1)
                    (rest, costs)).2) (by omega) _ _ _ hinv' (by omega) rfl rfl
              · rw [heq]
                exact ihc rest.length (by omega) rest costs hinvrest ha hb rfl
            obtain ⟨n, r, hn⟩ := hstep
            refine ⟨n + 1, r, ?_⟩
            rw [a_asterisk_go_succ, hpop]
            show (if is_completed e.2.2 then some (some e.2.1) else _) = _
            rw [if_neg hgoal]
            exact hn

/-- Soundness of the search loop: whenever every queued entry records the
cost of an actual move sequence from `start` to its state, a returned
cost is the cost of an actual move sequence from `start` to a goal
state. -/
lemma a_asterisk_go_sound (start : GameState) :
    ∀ (n : Nat) (queue : List Entry) (costs : CostMap) (c : Nat),
      (∀ e ∈ queue, Reaches start e.2.2 e.2.1) →
      a_asterisk_go is_completed n queue costs = some (some c) →
      ReachGoal start c := by
  intro n
  induction n with
  | zero => intro queue costs c _ h; simp [a_asterisk_go] at h
  | succ n ih =>
    intro queue costs c hq h
    cases hpop : popMin queue with
    | none => simp [a_asterisk_go, hpop] at h
    | some pr =>
      obtain ⟨e, rest⟩ := pr
      simp only [a_asterisk_go, hpop] at h
      obtain ⟨hmem, hsub⟩ := popMin_sub hpop
      by_cases hgoal : is_completed e.2.2 = true
      · rw [if_pos hgoal] at h
        simp only [Option.some.injEq] at h
        exact ⟨e.2.2, h ▸ hq e hmem, hgoal⟩
      · rw [if_neg hgoal] at h
        refine ih _ _ c ?_ h
        refine relax_fold_mem e.2.1 _ (rest, costs)
          (fun x hx => hq x (hsub x hx)) ?_
        intro sc hsc
        exact (hq e hmem).snoc hsc

/-- Soundness at the top level: a cost returned by `a_asterisk_search`
is the total cost of some sequence of generated moves from the start
state to a goal state. -/
lemma a_asterisk_search_sound (start : GameState) (c : Nat)
    (h : a_asterisk_search start is_completed = some (some c)) :
    ReachGoal start c := by
  refine a_asterisk_go_sound start SEARCH_FUEL _ _ c ?_ h
  intro e he
  simp only [List.mem_singleton] at he
  subst he
  exact Reaches.refl start

/-! ## Claim theorems -/

/-- C5, counterexample.  In `statePartial` every occupied room cell holds
the room's target type (so under the claim's reading — empty cells also
satisfy the condition — it would be a goal state), yet `is_completed`
returns `false`: the code requires rooms to be completely full. -/
theorem C5_counterexample :
    (∀ i, i < 4 → ∀ obj ∈ statePartial.2.getD i [], obj ≠ '.' → obj = targetChar i)
    ∧ is_completed statePartial = false := by decide

/-- C5, amended.  The goal predicate returns true iff every cell of every
room holds exactly that room's target unit type; an empty cell does not
satisfy the condition, so a goal room must be full. -/
theorem C5_amended (state : GameState) :
    is_completed state = true ↔ ∀ i, i < 4 → ∀ obj ∈ state.2.getD i [], obj = targetChar i := by
  unfold is_completed
  simp [List.all_eq_true, List.mem_range]

/-- Witness for C5's amended theorem at the fully sorted state. -/
theorem C5_amended_witness :
    is_completed goalFull = true
      ↔ ∀ i, i < 4 → ∀ obj ∈ goalFull.2.getD i [], obj = targetChar i :=
  C5_amended goalFull

/-- The instance parsed from `linesUnsolvable` generates no move and is
not a goal state, so no goal is reachable from it. -/
lemma unsolvable_no_goal : ¬ ∃ c, ReachGoal (data_input linesUnsolvable) c := by
  rintro ⟨c, g, hr, hg⟩
  cases hr with
  | refl => exact absurd hg (by decide)
  | step hmem _ =>
      rw [show neighbors (data_input linesUnsolvable) = [] from rfl] at hmem
      exact absurd hmem (List.not_mem_nil _)

/-- C1, counterexample.  From `linesUnsolvable` no sequence of generated
moves reaches a goal state (the parsed state generates no move at all and
is not a goal), yet `solve` returns `0` — not a distinguished absent
value, and indistinguishable from an already-solved instance. -/
theorem C1_counterexample :
    (¬ ∃ c, ReachGoal (data_input linesUnsolvable) c) ∧ solve linesUnsolvable = 0 :=
  ⟨unsolvable_no_goal, rfl⟩

/-- C1, amended.  When no goal state is reachable, the terminating search
returns the absent value `None` (`some none` in the fuelled model) and
never a cost; `solve` however collapses this absent result to `0`, the
same value an already-solved start state yields. -/
theorem C1_amended (lines : List (List Char)) (r : Option Nat)
    (hterm : a_asterisk_search (data_input lines) is_completed = some r)
    (huns : ¬ ∃ c, ReachGoal (data_input lines) c) :
    r = none ∧ solve lines = 0 := by
  have hr : r = none := by
    cases r with
    | none => rfl
    | some c => exact absurd ⟨c, a_asterisk_search_sound _ c hterm⟩ huns
  subst hr
  refine ⟨rfl, ?_⟩
  unfold solve
  rw [hterm]

/-- Witness for C1's amended theorem at the unsolvable instance. -/
theorem C1_amended_witness :
    (none : Option Nat) = none ∧ solve linesUnsolvable = 0 :=
  C1_amended linesUnsolvable none rfl unsolvable_no_goal

/-- C2, counterexample.  From `startSubopt` a sequence of generated
moves of total cost 6913 reaches the goal, but the search returns 7107:
the first goal state popped is not optimal (the heuristic is not
consistent). -/
theorem C2_counterexample :
    ReachGoal startSubopt 6913
    ∧ a_asterisk_search startSubopt is_completed = some (some 7107)
    ∧ (6913 : Nat) < 7107 := by
  refine ⟨⟨goalFull, ?_, by decide⟩, by rfl, by norm_num⟩
  exact Reaches.step (show (subopt1, 200) ∈ neighbors startSubopt by decide)
    (Reaches.step (show (subopt2, 5) ∈ neighbors subopt1 by decide)
      (Reaches.step (show (subopt3, 200) ∈ neighbors subopt2 by decide)
        (Reaches.step (show (subopt4, 300) ∈ neighbors subopt3 by decide)
          (Reaches.step (show (subopt5, 200) ∈ neighbors subopt4 by decide)
            (Reaches.step (show (subopt6, 6000) ∈ neighbors subopt5 by decide)
              (Reaches.step (show (goalFull, 8) ∈ neighbors subopt6 by decide)
                (Reaches.refl goalFull)))))))

/-- C2, amended.  A cost returned by the search is the total cost of an
actual sequence of generated moves from the start state to a goal state
(soundness); by the counterexample it is not always the minimum such
cost. -/
theorem C2_amended (start : GameState) (c : Nat)
    (h : a_asterisk_search start is_completed = some (some c)) :
    ReachGoal start c :=
  a_asterisk_search_sound start c h

/-- Witness for C2's amended theorem at `startSubopt`. -/
theorem C2_amended_witness : ReachGoal startSubopt 7107 :=
  C2_amended startSubopt 7107 rfl

/-- C3, counterexample.  From `hallAState` a legal move sequence of cost
2 reaches the goal, but the heuristic estimates 3: the heuristic
overestimates the true remaining cost, hence is not admissible. -/
theorem C3_counterexample :
    ReachGoal hallAState 2 ∧ heuristic hallAState = 3 := by
  refine ⟨⟨goalFull, ?_, by decide⟩, by rfl⟩
  exact Reaches.step (show (goalFull, 2) ∈ neighbors hallAState by decide)
    (Reaches.refl goalFull)

/-- C6.  From a corridor cell holding a unit, a hallway-to-room move is
generated exactly when the unit's target room is open, the corridor
strictly between the unit and the room entrance is clear, and the room
has an empty cell; the single successor places the unit at the deepest
empty cell and costs (horizontal distance + depth reached + 1) times the
unit's per-step cost.  No successor is generated otherwise. -/
theorem C6_hallway_moves (s : GameState) (hall_pos : Nat) (obj : Char)
    (hobj : s.1.getD hall_pos '.' = obj) (hunit : obj ∈ ['A', 'B', 'C', 'D']) :
    (HallMoveOK s hall_pos obj →
      ∃ d, d < ROOM_DEPTH
        ∧ (s.2.getD (abcdIndex obj) []).getD d '.' = '.'
        ∧ (∀ e, d < e → e < ROOM_DEPTH → (s.2.getD (abcdIndex obj) []).getD e '.' ≠ '.')
        ∧ moves_from_hallway s hall_pos =
            [((s.1.set hall_pos '.',
               s.2.set (abcdIndex obj) ((s.2.getD (abcdIndex obj) []).set d obj)),
              (Nat.dist hall_pos (TARGET_ROOM_POS obj) + d + 1) * COSTS obj)])
    ∧ (¬ HallMoveOK s hall_pos obj → moves_from_hallway s hall_pos = []) := by
  have hunits : obj = 'A' ∨ obj = 'B' ∨ obj = 'C' ∨ obj = 'D' := by simpa using hunit
  have hposeq : ROOM_INDICES.getD (abcdIndex obj) 0 = TARGET_ROOM_POS obj := by
    rcases hunits with rfl | rfl | rfl | rfl <;> rfl
  have hne : (obj == '.') = false := by
    rcases hunits with rfl | rfl | rfl | rfl <;> rfl
  constructor
  · rintro ⟨hopen, hclear, d0, hd0lt, hd0⟩
    obtain ⟨d, hd⟩ := deepestEmptyFrom_isSome _ d0 hd0lt hd0
    obtain ⟨hdlt, hdE, hdMax⟩ := (deepestEmpty_char _ _).mp hd
    refine ⟨d, hdlt, hdE, hdMax, ?_⟩
    have hclear' : ((List.range' (min hall_pos (TARGET_ROOM_POS obj) + 1)
        (max hall_pos (TARGET_ROOM_POS obj) - (min hall_pos (TARGET_ROOM_POS obj) + 1))).any
        fun pos => s.1.getD pos '.' != '.') = false := by
      rw [List.any_eq_false]
      intro x hx
      rw [List.mem_range'_1] at hx
      have := hclear x (by omega) (by omega)
      simp only [bne_iff_ne]
      exact not_not_intro this
    simp only [moves_from_hallway, hobj, hne, hposeq, hopen, hclear', hd,
      Bool.false_eq_true, if_false, Bool.not_true, Bool.false_eq_true, if_false]
  · intro hnot
    simp only [moves_from_hallway, hobj, hne, hposeq, Bool.false_eq_true, if_false]
    by_cases hopen : room_open obj (s.2.getD (abcdIndex obj) []) = true
    · rw [hopen]
      simp only [Bool.not_true, Bool.false_eq_true, if_false]
      by_cases hclear : ∀ q, min hall_pos (TARGET_ROOM_POS obj) < q →
          q < max hall_pos (TARGET_ROOM_POS obj) → s.1.getD q '.' = '.'
      · have hnone : deepestEmptyFrom (s.2.getD (abcdIndex obj) []) (ROOM_DEPTH - 1) = none := by
          cases hcase : deepestEmptyFrom (s.2.getD (abcdIndex obj) []) (ROOM_DEPTH - 1) with
          | none => rfl
          | some d =>
            obtain ⟨hdlt, hdE, _⟩ := (deepestEmpty_char _ _).mp hcase
            exact absurd ⟨hopen, hclear, d, hdlt, hdE⟩ hnot
        have hclear' : ((List.range' (min hall_pos (TARGET_ROOM_POS obj) + 1)
            (max hall_pos (TARGET_ROOM_POS obj) - (min hall_pos (TARGET_ROOM_POS obj) + 1))).any
            fun pos => s.1.getD pos '.' != '.') = false := by
          rw [List.any_eq_false]
          intro x hx
          rw [List.mem_range'_1] at hx
          have := hclear x (by omega) (by omega)
          simp only [bne_iff_ne]
          exact not_not_intro this
        rw [hclear']
        simp only [Bool.false_eq_true, if_false, hnone]
      · have hblock : ((List.range' (min hall_pos (TARGET_ROOM_POS obj) + 1)
            (max hall_pos (TARGET_ROOM_POS obj) - (min hall_pos (TARGET_ROOM_POS obj) + 1))).any
            fun pos => s.1.getD pos '.' != '.') = true := by
          push_neg at hclear
          obtain ⟨q, hq1, hq2, hq3⟩ := hclear
          rw [List.any_eq_true]
          refine ⟨q, ?_, by simp only [bne_iff_ne]; exact hq3⟩
          rw [List.mem_range'_1]
          omega
        rw [hblock]
        simp
    · have hfalse : room_open obj (s.2.getD (abcdIndex obj) []) = false :=
        Bool.eq_false_iff.mpr hopen
      rw [hfalse]
      simp

/-- C4, counterexample.  The move generator produces from `hallAState`
the successor `goalFull` with step cost 2, but
`heuristic goalFull + 2 = 2 < 3 = heuristic hallAState`: the heuristic
is not consistent. -/
theorem C4_counterexample :
    ((goalFull, 2) ∈ neighbors hallAState)
    ∧ heuristic goalFull + 2 < heuristic hallAState := by decide

/-- Witness for C6 at `hallAState`: the `A` at corridor cell 1 moves into
its room at depth 0 with cost 2. -/
theorem C6_hallway_moves_witness :
    ∃ d, d < ROOM_DEPTH
      ∧ (hallAState.2.getD (abcdIndex 'A') []).getD d '.' = '.'
      ∧ (∀ e, d < e → e < ROOM_DEPTH → (hallAState.2.getD (abcdIndex 'A') []).getD e '.' ≠ '.')
      ∧ moves_from_hallway hallAState 1 =
          [((hallAState.1.set 1 '.',
             hallAState.2.set (abcdIndex 'A') ((hallAState.2.getD (abcdIndex 'A') []).set d 'A')),
            (Nat.dist 1 (TARGET_ROOM_POS 'A') + d + 1) * COSTS 'A')] := by
  refine (C6_hallway_moves hallAState 1 'A' rfl (by decide)).1 ⟨by decide, ?_, 0, by decide, rfl⟩
  intro q h1 h2
  rw [show min 1 (TARGET_ROOM_POS 'A') = 1 from rfl] at h1
  rw [show max 1 (TARGET_ROOM_POS 'A') = 2 from rfl] at h2
  exact absurd h1 (by omega)

/-- C7.  Room-to-hallway moves are generated only when the room holds a
unit and is not settled (`room_open` of the target type is false covers
both: an all-empty room is open); in that case the moved unit is the one
in the shallowest occupied cell, the destinations are exactly the
corridor cells reachable through an uninterrupted run of empty cells
from next to the entrance, excluding entrance columns, and each cost is
(depth-to-exit + 1 + horizontal distance) times the unit's per-step
cost. -/
theorem C7_room_moves (s : GameState) (room_id : Nat) (hid : room_id < 4)
    (hlen : (s.2.getD room_id []).length = ROOM_DEPTH) :
    (room_open (targetChar room_id) (s.2.getD room_id []) = true →
      moves_to_target s room_id = [])
    ∧ (room_open (targetChar room_id) (s.2.getD room_id []) = false →
      (∀ e, e < firstOccupied (s.2.getD room_id []) →
          (s.2.getD room_id []).getD e '.' = '.')
      ∧ (s.2.getD room_id []).getD (firstOccupied (s.2.getD room_id [])) '.' ≠ '.'
      ∧ ∀ p : GameState × Nat,
          p ∈ moves_to_target s room_id ↔
            ∃ pos, isInvalidHall pos = false
              ∧ ((pos < ROOM_INDICES.getD room_id 0
                    ∧ ∀ q, pos ≤ q → q < ROOM_INDICES.getD room_id 0 → s.1.getD q '.' = '.')
                 ∨ (ROOM_INDICES.getD room_id 0 < pos ∧ pos < HALL_LEN
                    ∧ ∀ q, ROOM_INDICES.getD room_id 0 < q → q ≤ pos → s.1.getD q '.' = '.'))
              ∧ p = ((s.1.set pos
                        ((s.2.getD room_id []).getD (firstOccupied (s.2.getD room_id [])) '.'),
                      s.2.set room_id
                        ((s.2.getD room_id []).set (firstOccupied (s.2.getD room_id [])) '.')),
                     (firstOccupied (s.2.getD room_id []) + 1
                       + Nat.dist pos (ROOM_INDICES.getD room_id 0))
                       * COSTS ((s.2.getD room_id []).getD
                           (firstOccupied (s.2.getD room_id [])) '.'))) := by
  have hrp : ROOM_INDICES.getD room_id 0 = 2 ∨ ROOM_INDICES.getD room_id 0 = 4
      ∨ ROOM_INDICES.getD room_id 0 = 6 ∨ ROOM_INDICES.getD room_id 0 = 8 := by
    interval_cases room_id
    · exact Or.inl rfl
    · exact Or.inr (Or.inl rfl)
    · exact Or.inr (Or.inr (Or.inl rfl))
    · exact Or.inr (Or.inr (Or.inr rfl))
  constructor
  · intro hopen
    rw [moves_to_target_eq]
    by_cases hall : (s.2.getD room_id []).all (fun r => r == '.') = true
    · rw [if_pos hall]
    · rw [if_neg hall, if_pos ?_]
      rw [hopen, Bool.true_and, List.all_eq_true]
      intro o ho
      have h1 := List.all_eq_true.mp hopen o ho
      rw [Bool.or_comm]
      exact h1
  · intro hclosed
    have hexists : ∃ c ∈ s.2.getD room_id [], c ≠ '.' ∧ c ≠ targetChar room_id := by
      by_contra hno
      push_neg at hno
      have : room_open (targetChar room_id) (s.2.getD room_id []) = true := by
        rw [room_open, List.all_eq_true]
        intro o ho
        by_cases hdot : o = '.'
        · simp [hdot]
        · have := hno o ho hdot
          simp [this]
      rw [this] at hclosed
      cases hclosed
    obtain ⟨cbad, hcbad, hcbad1, _⟩ := hexists
    have hfo_lt : firstOccupied (s.2.getD room_id []) < (s.2.getD room_id []).length :=
      firstOccupied_lt_length _ cbad hcbad hcbad1
    refine ⟨(firstOccupied_spec _).1, (firstOccupied_spec _).2 hfo_lt, ?_⟩
    intro p
    have hne_all : (s.2.getD room_id []).all (fun r => r == '.') = false := by
      cases hcase : (s.2.getD room_id []).all (fun r => r == '.') with
      | false => rfl
      | true =>
        have : room_open (targetChar room_id) (s.2.getD room_id []) = true := by
          rw [room_open, List.all_eq_true]
          intro o ho
          have := List.all_eq_true.mp hcase o ho
          rw [beq_iff_eq] at this
          simp [this]
        rw [this] at hclosed
        cases hclosed
    have hfo_ne : (firstOccupied (s.2.getD room_id []) == ROOM_DEPTH) = false := by
      rw [beq_eq_false_iff_ne]
      rw [hlen] at hfo_lt
      omega
    rw [moves_to_target_eq, if_neg (by rw [hne_all]; exact Bool.false_ne_true),
      if_neg (by rw [hclosed, Bool.false_and]; exact Bool.false_ne_true),
      if_neg (by rw [hfo_ne]; exact Bool.false_ne_true)]
    rw [List.mem_append, List.mem_map, List.mem_map]
    constructor
    · rintro (⟨pos, hpos, rfl⟩ | ⟨pos, hpos, rfl⟩)
      · rw [scanLeft_mem] at hpos
        exact ⟨pos, hpos.1, Or.inl ⟨hpos.2.1, hpos.2.2⟩, rfl⟩
      · rw [scanRight_mem] at hpos
        refine ⟨pos, hpos.1, Or.inr ⟨by omega, ?_, fun q hq1 hq2 => hpos.2.2.2 q (by omega) hq2⟩, rfl⟩
        have := hpos.2.2.1
        rw [show HALL_LEN = 11 from rfl] at this ⊢
        omega
    · rintro ⟨pos, hv, hcase, rfl⟩
      rcases hcase with ⟨hlt, hclear⟩ | ⟨hgt, hlt11, hclear⟩
      · exact Or.inl ⟨pos, (scanLeft_mem s.1 _ pos).mpr ⟨hv, hlt, hclear⟩, rfl⟩
      · refine Or.inr ⟨pos, (scanRight_mem s.1 _ _ pos).mpr ⟨hv, by omega, ?_,
          fun q hq1 hq2 => hclear q (by omega) hq2⟩, rfl⟩
        rw [show HALL_LEN = 11 from rfl] at hlt11 ⊢
        omega

/-- Witness for C7 at `startSubopt`, room 2 (holding `C` over `A`):
the room is not settled, the moved unit is the `C` at depth 0. -/
theorem C7_room_moves_witness :
    (∀ e, e < firstOccupied (startSubopt.2.getD 2 []) →
        (startSubopt.2.getD 2 []).getD e '.' = '.')
    ∧ (startSubopt.2.getD 2 []).getD (firstOccupied (startSubopt.2.getD 2 [])) '.' ≠ '.'
    ∧ ∀ p : GameState × Nat,
        p ∈ moves_to_target startSubopt 2 ↔
          ∃ pos, isInvalidHall pos = false
            ∧ ((pos < ROOM_INDICES.getD 2 0
                  ∧ ∀ q, pos ≤ q → q < ROOM_INDICES.getD 2 0 → startSubopt.1.getD q '.' = '.')
               ∨ (ROOM_INDICES.getD 2 0 < pos ∧ pos < HALL_LEN
                  ∧ ∀ q, ROOM_INDICES.getD 2 0 < q → q ≤ pos → startSubopt.1.getD q '.' = '.'))
            ∧ p = ((startSubopt.1.set pos
                      ((startSubopt.2.getD 2 []).getD (firstOccupied (startSubopt.2.getD 2 [])) '.'),
                    startSubopt.2.set 2
                      ((startSubopt.2.getD 2 []).set (firstOccupied (startSubopt.2.getD 2 [])) '.')),
                   (firstOccupied (startSubopt.2.getD 2 []) + 1
                     + Nat.dist pos (ROOM_INDICES.getD 2 0))
                     * COSTS ((startSubopt.2.getD 2 []).getD
                         (firstOccupied (startSubopt.2.getD 2 [])) '.')) :=
  (C7_room_moves startSubopt 2 (by decide) (by decide)).2 rfl

/-- C8.  Conservation: every successor produced by the move generator
carries exactly the same multiset of unit types across the corridor and
the rooms as its predecessor — no unit is created, destroyed, or
retyped. -/
theorem C8_conservation (s : GameState) (p : GameState × Nat) (hwf : WF s)
    (h : p ∈ neighbors s) : unitMultiset p.1 = unitMultiset s := by
  have hcount := fun t => countType_moves hwf h t
  refine Multiset.ext.mpr fun a => ?_
  unfold unitMultiset
  rw [Multiset.coe_count, Multiset.coe_count]
  by_cases ha : a = '.'
  · subst ha
    have h1 : ∀ (l : List Char), List.count '.' (l.filter fun c => c != '.') = 0 := by
      intro l
      rw [List.count_eq_zero]
      intro hmem
      have := List.of_mem_filter hmem
      simp at this
    rw [h1, h1]
  · rw [List.count_filter (by simp only [bne_iff_ne]; exact ha),
      List.count_filter (by simp only [bne_iff_ne]; exact ha),
      List.count_append, List.count_append, List.count_flatten, List.count_flatten]
    have := hcount a
    unfold countType at this
    omega

/-- Witness for C8: the first move of the optimal play from
`startSubopt` conserves the unit multiset. -/
theorem C8_conservation_witness : unitMultiset subopt1 = unitMultiset startSubopt :=
  C8_conservation startSubopt (subopt1, 200) (by decide) (by decide)

/-- C9.  If within every room the occupied cells form a contiguous block
at the back, every generated successor satisfies the same property; and
in such a state the deepest empty cell chosen by a hallway-to-room move
has every shallower cell empty, so a unit is never placed behind another
unit. -/
theorem C9_packed (s : GameState) (hwf : WF s) (hpk : Packed s) :
    (∀ p ∈ neighbors s, Packed p.1)
    ∧ (∀ rid d, rid < 4 →
        deepestEmptyFrom (s.2.getD rid []) (ROOM_DEPTH - 1) = some d →
        ∀ e, e < d → (s.2.getD rid []).getD e '.' = '.') := by
  obtain ⟨hcor, h4, hrooms⟩ := hwf
  constructor
  · intro p hp
    rw [mem_neighbors] at hp
    rcases hp with ⟨i, hi, h⟩ | ⟨pos, hpos, h⟩
    · have hlen : (s.2.getD i []).length = ROOM_DEPTH :=
        hrooms _ (getD_mem s.2 i [] (by omega))
      obtain ⟨pos, hposlt, hdot, hfo, hocc, hp1, _⟩ := moves_to_target_shape hlen h
      rw [hp1]
      intro r hr e hel d hde hoccd
      rcases List.mem_or_eq_of_mem_set hr with hr' | rfl
      · exact hpk r hr' e hel d hde hoccd
      · have hroom_mem : s.2.getD i [] ∈ s.2 := getD_mem s.2 i [] (by omega)
        have hlenset : ((s.2.getD i []).set (firstOccupied (s.2.getD i [])) '.').length
            = (s.2.getD i []).length := by simp
        have hdj : d ≠ firstOccupied (s.2.getD i []) := by
          rintro hdj
          apply hoccd
          rw [hdj]
          exact getD_set_self _ _ '.' '.' hfo
        have hdorig : (s.2.getD i []).getD d '.' ≠ '.' := by
          rwa [getD_set_ne _ _ _ '.' '.' (fun hh => hdj hh.symm)] at hoccd
        have hdgt : firstOccupied (s.2.getD i []) < d := by
          rcases Nat.lt_or_ge d (firstOccupied (s.2.getD i [])) with hlt | hge
          · exact absurd ((firstOccupied_spec _).1 d hlt) hdorig
          · omega
        have hej : e ≠ firstOccupied (s.2.getD i []) := by omega
        rw [getD_set_ne _ _ _ '.' '.' (fun hh => hej hh.symm)]
        exact hpk _ hroom_mem e (by omega) d hde hdorig
    · obtain ⟨obj, d, hobj, hne, hdlt, hdE, hdMax, hp1, _⟩ := moves_from_hallway_shape h
      rw [hp1]
      intro r hr e hel d' hde hoccd
      rcases List.mem_or_eq_of_mem_set hr with hr' | rfl
      · exact hpk r hr' e hel d' hde hoccd
      · have htid : abcdIndex obj < 4 := abcdIndex_lt obj
        have hroom_mem : s.2.getD (abcdIndex obj) [] ∈ s.2 :=
          getD_mem s.2 (abcdIndex obj) [] (by omega)
        have hlen : (s.2.getD (abcdIndex obj) []).length = ROOM_DEPTH := hrooms _ hroom_mem
        have hlenset : ((s.2.getD (abcdIndex obj) []).set d obj).length
            = (s.2.getD (abcdIndex obj) []).length := by simp
        by_cases hd'd : d' = d
        · subst hd'd
          have heorig : (s.2.getD (abcdIndex obj) []).getD e '.' ≠ '.' :=
            hdMax e hde (by omega)
          have hed : e ≠ d' := by omega
          rwa [getD_set_ne _ _ _ obj '.' (fun hh => hed hh.symm)]
        · have hd'orig : (s.2.getD (abcdIndex obj) []).getD d' '.' ≠ '.' := by
            rwa [getD_set_ne _ _ _ obj '.' (fun hh => hd'd hh.symm)] at hoccd
          have hd'gt : d < d' := by
            rcases Nat.lt_or_ge d' d with hlt | hge
            · exact absurd (hpk _ hroom_mem d (by omega) d' hlt hd'orig) (by
                rw [hdE]; exact fun hh => hh rfl)
            · omega
          have hed : e ≠ d := by omega
          rw [getD_set_ne _ _ _ obj '.' (fun hh => hed hh.symm)]
          exact hpk _ hroom_mem e (by omega) d' hde hd'orig
  · intro rid d hrid hd e hed
    obtain ⟨hdlt, hdE, _⟩ := (deepestEmpty_char _ _).mp hd
    have hroom_mem : s.2.getD rid [] ∈ s.2 := getD_mem s.2 rid [] (by omega)
    have hlen : (s.2.getD rid []).length = ROOM_DEPTH := hrooms _ hroom_mem
    by_contra hocc
    exact (hpk _ hroom_mem d (by omega) e hed hocc) hdE

/-- Witness for C9 at `startSubopt` (whose rooms are packed). -/
theorem C9_packed_witness :
    (∀ p ∈ neighbors startSubopt, Packed p.1)
    ∧ (∀ rid d, rid < 4 →
        deepestEmptyFrom (startSubopt.2.getD rid []) (ROOM_DEPTH - 1) = some d →
        ∀ e, e < d → (startSubopt.2.getD rid []).getD e '.' = '.') :=
  C9_packed startSubopt (by decide) (by decide)

/-- C3, amended.  The heuristic is not admissible (counterexample), but
it exceeds the true cost of any move sequence to a goal by at most
`(ROOM_DEPTH - 1)` steps per misplaced unit: for every well-formed,
balanced state and every generated move sequence of cost `c` to a goal,
`heuristic ≤ c + (ROOM_DEPTH - 1) · misplacedCost`.  Equivalently, the
variant charging a single entry step instead of `ROOM_DEPTH` is
admissible. -/
theorem C3_amended (s : GameState) (c : Nat) (hwf : WF s) (hbal : Balanced s)
    (h : ReachGoal s c) :
    heuristic s ≤ c + (ROOM_DEPTH - 1) * misplacedCost s := by
  obtain ⟨g, hr, hg⟩ := h
  have hlow := heuristicLow_le_path hr hwf hbal hg
  rw [heuristic_split]
  omega

/-- Witness for C3's amended theorem at `hallAState`: the bound is tight
there (`3 ≤ 2 + 1`). -/
theorem C3_amended_witness :
    heuristic hallAState ≤ 2 + (ROOM_DEPTH - 1) * misplacedCost hallAState :=
  C3_amended hallAState 2 (by decide) (by decide)
    ⟨goalFull, Reaches.step (show (goalFull, 2) ∈ neighbors hallAState by decide)
      (Reaches.refl goalFull), by decide⟩

/-- C4, amended.  The triangle inequality fails in general
(counterexample), but it holds with a slack of `(ROOM_DEPTH - 1) · 1000`
(the worst room-entry overcharge), and it holds exactly for every
room-to-hallway move. -/
theorem C4_amended :
    (∀ (s t : GameState) (c : Nat), WF s → (t, c) ∈ neighbors s →
      heuristic s ≤ c + heuristic t + (ROOM_DEPTH - 1) * 1000)
    ∧ (∀ (s : GameState) (rid : Nat) (t : GameState) (c : Nat), WF s → rid < 4 →
        (t, c) ∈ moves_to_target s rid → heuristic s ≤ c + heuristic t) := by
  constructor
  · intro s t c hwf h
    rw [heuristic_eq_K, heuristic_eq_K]
    rw [mem_neighbors] at h
    rcases h with ⟨i, hi, h⟩ | ⟨pos, hpos, h⟩
    · have h1 : heuristicK ROOM_DEPTH s ≤ c + heuristicK ROOM_DEPTH t :=
        heuristicK_room_exit ROOM_DEPTH hwf hi h
      omega
    · exact heuristicK_hall_entry ROOM_DEPTH hwf h
  · intro s rid t c hwf hrid h
    rw [heuristic_eq_K, heuristic_eq_K]
    exact heuristicK_room_exit ROOM_DEPTH hwf hrid h

/-- Witness for C4's amended theorem: the slack bound at the
inconsistent move from `hallAState`, and the exact inequality at the
first move of `startSubopt`. -/
theorem C4_amended_witness :
    (heuristic hallAState ≤ 2 + heuristic goalFull + (ROOM_DEPTH - 1) * 1000)
    ∧ heuristic startSubopt ≤ 200 + heuristic subopt1 :=
  ⟨C4_amended.1 hallAState goalFull 2 (by decide) (by decide),
   C4_amended.2 startSubopt 2 subopt1 200 (by decide) (by decide) (by decide)⟩

/-- C10: the search terminates on every (well-shaped, valid-celled)
start state.  A state is re-recorded only when its best-known cost
strictly decreases, and there are at most `STATE_BOUND` distinct states,
so some finite fuel makes the loop return — either a cost or the absent
value `None`. -/
theorem C10_termination (start : GameState) (hwf : WF start) (hv : ValidState start) :
    ∃ n r, a_asterisk_go is_completed n
      [(0 + heuristic start, 0, start)] [(start, 0)] = some r :=
  a_asterisk_go_exits (STATE_BOUND - 1) (mapTotal [(start, 0)]) 1
    [(0 + heuristic start, 0, start)] [(start, 0)]
    ⟨fun e he => by
        rw [List.mem_singleton] at he
        subst he
        exact ⟨hwf, hv⟩,
     fun q hq => by
        rw [List.mem_singleton] at hq
        subst hq
        exact ⟨hwf, hv⟩,
     by simp⟩
    rfl rfl rfl

/-- Witness for C10 at `startSubopt`:  the hypotheses hold there and the
loop returns for some fuel. -/
theorem C10_termination_witness :
    WF startSubopt ∧ ValidState startSubopt ∧
    ∃ n r, a_asterisk_go is_completed n
      [(0 + heuristic startSubopt, 0, startSubopt)] [(startSubopt, 0)] = some r :=
  ⟨by decide, by decide, C10_termination startSubopt (by decide) (by decide)⟩

end Solution
